import Mathlib

/-!
Verification of the schema-driven analysis core of a JSON language server.

The development shallowly embeds the relevant Rust modules:

* `src/document.rs` — the `LineIndex` (line-start offsets, byte/UTF-16
  position conversion) and the document store;
* `src/schema/types.rs` — the compiled `JsonSchema`, `from_value` parsing and
  `resolve_path_segment`;
* `src/completion.rs` — property-name completion;
* `src/server.rs` — the per-URI debounce counter and `did_close`.

Rust `String`s are modelled at two granularities, matching the granularity at
which each function walks them: `LineIndex::new`/`update` iterate raw bytes
(`List Nat`), while `offset_of`/`position_of` iterate `char`s of a line
(`List Char`).  `usize` values are `Nat`; machine-width overflow is irrelevant
here except in `str::parse::<usize>`, where the 2^64 bound is modelled
explicitly.
-/

namespace JsonLS

/-! ## Byte-level line index (`LineIndex::new`, `LineIndex::update`)

`LineIndex::new` iterates `text.bytes()` and records `i + 1` for every byte
`b'\n'` (byte value 10), after an initial entry 0.  `nlStarts t pos` is the
list of such entries for the byte list `t` whose first byte sits at absolute
offset `pos`. -/

def nlStarts : List Nat → Nat → List Nat
  | [], _ => []
  | b :: rest, pos =>
    if b = 10 then (pos + 1) :: nlStarts rest (pos + 1) else nlStarts rest (pos + 1)

/-- `LineIndex::new` (document.rs): `vec![0]` plus one entry just past every
newline byte. -/
def lineIndexNew (text : List Nat) : List Nat := 0 :: nlStarts text 0

/-- `LineIndex::update` (document.rs).  `lineStarts` is the pre-edit index,
`text` the post-edit text, the edit replaced the `oldLen` bytes at
`startByte` with `newText`.

Rust computes `first_removed`/`last_removed` with `partition_point`, a binary
search that assumes the list is partitioned by the predicate; on the sorted
line-start lists the index actually holds it coincides with the length of the
maximal satisfying prefix, which is how it is rendered here
(`takeWhile`/`dropWhile`).  The `(s as isize + delta) as usize` shift is
non-negative for every retained entry (each is `> startByte + oldLen`), so it
is `s + newText.length - oldLen` on `Nat`. -/
def lineIndexUpdate (lineStarts : List Nat) (text : List Nat)
    (startByte oldLen : Nat) (newText : List Nat) : List Nat :=
  let oldEnd := startByte + oldLen
  let kept := lineStarts.takeWhile (fun s => s ≤ startByte)
  let linesAfter :=
    (lineStarts.dropWhile (fun s => s ≤ oldEnd)).map (fun s => s + newText.length - oldLen)
  let newStarts := nlStarts newText startByte
  let rebuilt := kept ++ newStarts ++ linesAfter
  -- `if self.line_starts.is_empty() || self.line_starts[0] != 0` — full rebuild.
  if rebuilt.head? ≠ some 0 then lineIndexNew text else rebuilt

/-! ### Supporting lemmas for the incremental update -/

theorem nlStarts_append (a b : List Nat) (pos : Nat) :
    nlStarts (a ++ b) pos = nlStarts a pos ++ nlStarts b (pos + a.length) := by
  induction a generalizing pos with
  | nil => simp [nlStarts]
  | cons x rest ih =>
    simp only [List.cons_append, nlStarts]
    by_cases hx : x = 10 <;> simp [hx, ih, Nat.add_assoc, Nat.add_comm 1 rest.length]

theorem nlStarts_mem_bounds {x : Nat} : ∀ {t : List Nat} {pos : Nat},
    x ∈ nlStarts t pos → pos < x ∧ x ≤ pos + t.length
  | [], pos, h => by simp [nlStarts] at h
  | b :: rest, pos, h => by
    simp only [nlStarts] at h
    split at h
    · rcases List.mem_cons.1 h with h1 | h1
      · subst h1; simp only [List.length_cons]; omega
      · have := nlStarts_mem_bounds h1; simp only [List.length_cons]; omega
    · have := nlStarts_mem_bounds h; simp only [List.length_cons]; omega

theorem nlStarts_shift : ∀ (t : List Nat) (pos : Nat),
    nlStarts t pos = (nlStarts t 0).map (fun x => x + pos)
  | [], _ => by simp [nlStarts]
  | b :: rest, pos => by
    simp only [nlStarts]
    by_cases hb : b = 10
    · rw [if_pos hb, if_pos hb, nlStarts_shift rest (pos + 1), nlStarts_shift rest 1,
        List.map_cons, List.map_map]
      congr 1
      · omega
      · apply List.map_congr_left; intro a _; simp only [Function.comp_apply]; omega
    · rw [if_neg hb, if_neg hb, nlStarts_shift rest (pos + 1), nlStarts_shift rest 1,
        List.map_map]
      apply List.map_congr_left; intro a _; simp only [Function.comp_apply]; omega

theorem takeWhile_append_all {α : Type} (p : α → Bool) {A : List α} (B : List α)
    (h : ∀ a ∈ A, p a = true) : (A ++ B).takeWhile p = A ++ B.takeWhile p := by
  induction A with
  | nil => simp
  | cons x rest ih =>
    have hx : p x = true := h x (List.mem_cons_self x rest)
    simp only [List.cons_append, List.takeWhile_cons, hx, if_pos]
    rw [ih (fun a ha => h a (List.mem_cons_of_mem x ha))]

theorem takeWhile_nil_of_none {α : Type} (p : α → Bool) {B : List α}
    (h : ∀ b ∈ B, p b = false) : B.takeWhile p = [] := by
  cases B with
  | nil => rfl
  | cons x rest =>
    have hx : p x = false := h x (List.mem_cons_self x rest)
    simp [List.takeWhile_cons, hx]

theorem dropWhile_append_all {α : Type} (p : α → Bool) {A : List α} (B : List α)
    (h : ∀ a ∈ A, p a = true) : (A ++ B).dropWhile p = B.dropWhile p := by
  induction A with
  | nil => simp
  | cons x rest ih =>
    have hx : p x = true := h x (List.mem_cons_self x rest)
    simp only [List.cons_append, List.dropWhile_cons, hx, if_pos]
    exact ih (fun a ha => h a (List.mem_cons_of_mem x ha))

theorem dropWhile_self_of_none {α : Type} (p : α → Bool) {B : List α}
    (h : ∀ b ∈ B, p b = false) : B.dropWhile p = B := by
  cases B with
  | nil => rfl
  | cons x rest =>
    have hx : p x = false := h x (List.mem_cons_self x rest)
    simp [List.dropWhile_cons, hx]

/-- The incremental update, with the pre-edit text presented as the explicit
decomposition `A ++ M ++ C` (prefix, removed region, suffix). -/
theorem lineIndexUpdate_eq_new_parts (A M C newText : List Nat) (startByte oldLen : Nat)
    (hAlen : A.length = startByte) (hMlen : M.length = oldLen) :
    lineIndexUpdate (lineIndexNew (A ++ M ++ C)) (A ++ newText ++ C)
        startByte oldLen newText
      = lineIndexNew (A ++ newText ++ C) := by
  have hsplit : nlStarts (A ++ M ++ C) 0
      = nlStarts A 0 ++ nlStarts M startByte ++ nlStarts C (startByte + oldLen) := by
    rw [nlStarts_append, nlStarts_append]
    simp [hAlen, hMlen]
  have hAle : ∀ x ∈ nlStarts A 0, x ≤ startByte := fun x hx => by
    have := nlStarts_mem_bounds hx; omega
  have hMrange : ∀ x ∈ nlStarts M startByte, startByte < x ∧ x ≤ startByte + oldLen :=
    fun x hx => by have := nlStarts_mem_bounds hx; omega
  have hCgt : ∀ x ∈ nlStarts C (startByte + oldLen), startByte + oldLen < x := fun x hx =>
    (nlStarts_mem_bounds hx).1
  have hkept : (lineIndexNew (A ++ M ++ C)).takeWhile (fun s => s ≤ startByte)
      = 0 :: nlStarts A 0 := by
    unfold lineIndexNew
    rw [hsplit]
    have hshape : (0 :: (nlStarts A 0 ++ nlStarts M startByte
          ++ nlStarts C (startByte + oldLen)))
        = (0 :: nlStarts A 0) ++ (nlStarts M startByte
          ++ nlStarts C (startByte + oldLen)) := by simp
    rw [hshape, takeWhile_append_all _ _ (fun a ha => by
      rcases List.mem_cons.1 ha with h1 | h1
      · subst h1; simp
      · have := hAle a h1; simp only [decide_eq_true_eq]; omega)]
    rw [takeWhile_nil_of_none _ (fun b hb => by
      rcases List.mem_append.1 hb with h1 | h1
      · have := (hMrange b h1).1; simp only [decide_eq_false_iff_not]; omega
      · have := hCgt b h1; simp only [decide_eq_false_iff_not]; omega)]
    simp
  have hdrop : (lineIndexNew (A ++ M ++ C)).dropWhile (fun s => s ≤ startByte + oldLen)
      = nlStarts C (startByte + oldLen) := by
    unfold lineIndexNew
    rw [hsplit]
    have hshape : (0 :: (nlStarts A 0 ++ nlStarts M startByte
          ++ nlStarts C (startByte + oldLen)))
        = ((0 :: nlStarts A 0) ++ nlStarts M startByte)
          ++ nlStarts C (startByte + oldLen) := by simp
    rw [hshape, dropWhile_append_all _ _ (fun a ha => by
      rcases List.mem_append.1 ha with h1 | h1
      · rcases List.mem_cons.1 h1 with h2 | h2
        · subst h2; simp
        · have := hAle a h2; simp only [decide_eq_true_eq]; omega
      · have := (hMrange a h1).2; simp only [decide_eq_true_eq]; omega)]
    exact dropWhile_self_of_none _ (fun b hb => by
      have := hCgt b hb; simp only [decide_eq_false_iff_not]; omega)
  have hshiftC : (nlStarts C (startByte + oldLen)).map
        (fun s => s + newText.length - oldLen)
      = nlStarts C (startByte + newText.length) := by
    rw [nlStarts_shift C (startByte + oldLen), nlStarts_shift C (startByte + newText.length),
        List.map_map]
    apply List.map_congr_left
    intro a _
    simp only [Function.comp_apply]
    omega
  have hpost : lineIndexNew (A ++ newText ++ C)
      = (0 :: nlStarts A 0) ++ nlStarts newText startByte
          ++ nlStarts C (startByte + newText.length) := by
    unfold lineIndexNew
    rw [nlStarts_append, nlStarts_append]
    simp [hAlen]
  unfold lineIndexUpdate
  simp only [hkept, hdrop, hshiftC]
  rw [← hpost]
  have hhead : (lineIndexNew (A ++ newText ++ C)).head? = some 0 := by
    unfold lineIndexNew; rfl
  simp [hhead]

/-- **C1.** For every pre-edit text, every in-range edit
`(startByte, oldLen, newText)`, and the `LineIndex` built from the pre-edit
text, `LineIndex::update` applied to the post-edit text produces exactly the
line-start sequence of `LineIndex::new` on the post-edit text (the
first-entry-zero fallback included: the rebuilt list always starts with 0,
so the fallback never fires). -/
theorem claim_C1_lineIndex_update_refines_new
    (pre newText : List Nat) (startByte oldLen : Nat)
    (h : startByte + oldLen ≤ pre.length) :
    lineIndexUpdate (lineIndexNew pre)
        (pre.take startByte ++ newText ++ pre.drop (startByte + oldLen))
        startByte oldLen newText
      = lineIndexNew (pre.take startByte ++ newText ++ pre.drop (startByte + oldLen)) := by
  have hpre : pre = pre.take startByte ++ (pre.take (startByte + oldLen)).drop startByte
      ++ pre.drop (startByte + oldLen) := by
    have h2 : pre.take startByte ++ (pre.take (startByte + oldLen)).drop startByte
        = pre.take (startByte + oldLen) := by
      have h1 : pre.take startByte = (pre.take (startByte + oldLen)).take startByte := by
        rw [List.take_take]; congr 1; omega
      rw [h1, List.take_append_drop]
    calc pre = pre.take (startByte + oldLen) ++ pre.drop (startByte + oldLen) :=
          (List.take_append_drop _ _).symm
      _ = _ := by conv_lhs => rw [← h2]
  have hres := lineIndexUpdate_eq_new_parts (pre.take startByte)
    ((pre.take (startByte + oldLen)).drop startByte) (pre.drop (startByte + oldLen))
    newText startByte oldLen
    (by simp [List.length_take]; omega)
    (by simp [List.length_drop, List.length_take]; omega)
  rw [← hpre] at hres
  exact hres

/-- Witness for C1 at a concrete edit: in text `"ab\ncd"` replace the byte
range `[2, 4)` (`"\nc"`) with `"x\ny"`. -/
theorem claim_C1_witness :
    2 + 2 ≤ [97, 98, 10, 99, 100].length ∧
      lineIndexUpdate (lineIndexNew [97, 98, 10, 99, 100])
          ([97, 98, 10, 99, 100].take 2 ++ [120, 10, 121]
            ++ [97, 98, 10, 99, 100].drop (2 + 2))
          2 2 [120, 10, 121]
        = lineIndexNew ([97, 98, 10, 99, 100].take 2 ++ [120, 10, 121]
            ++ [97, 98, 10, 99, 100].drop (2 + 2)) :=
  ⟨by decide, claim_C1_lineIndex_update_refines_new [97, 98, 10, 99, 100] [120, 10, 121] 2 2
    (by decide)⟩

/-! ## Character-level text model (`offset_of`, `position_of`)

`LineIndex::offset_of` and `position_of` walk `&str` slices with
`str::chars()`, using `char::len_utf8`/`len_utf16`.  A document is therefore
modelled as its list of Unicode scalar values (`List Char`); byte offsets are
recovered from the per-character UTF-8 lengths.  Rust string slicing
`&text[a..b]` is applied by the source only at character boundaries (both
ends are line starts or character-loop offsets), which is where `takeBytes`/
`dropBytes` below agree with it. -/

/-- `char::len_utf8`. -/
def utf8Len (c : Char) : Nat :=
  if c.toNat < 0x80 then 1 else if c.toNat < 0x800 then 2
  else if c.toNat < 0x10000 then 3 else 4

/-- `char::len_utf16` (code points above U+FFFF need a surrogate pair). -/
def utf16Len (c : Char) : Nat := if c.toNat < 0x10000 then 1 else 2

/-- `str::len` — total UTF-8 byte length. -/
def utf8Sum (s : List Char) : Nat := (s.map utf8Len).sum

/-- Total UTF-16 length (`chars().map(len_utf16).sum()`). -/
def utf16Sum (s : List Char) : Nat := (s.map utf16Len).sum

/-- The UTF-8 encoding of one character, as byte values. -/
def utf8Bytes (c : Char) : List Nat :=
  if c.toNat < 0x80 then [c.toNat]
  else if c.toNat < 0x800 then [0xC0 + c.toNat / 64, 0x80 + c.toNat % 64]
  else if c.toNat < 0x10000 then
    [0xE0 + c.toNat / 4096, 0x80 + (c.toNat / 64) % 64, 0x80 + c.toNat % 64]
  else
    [0xF0 + c.toNat / 262144, 0x80 + (c.toNat / 4096) % 64, 0x80 + (c.toNat / 64) % 64,
      0x80 + c.toNat % 64]

/-- Character-level rendering of the `LineIndex::new` byte scan: an entry just
past every `'\n'` (whose UTF-8 length is 1, so the entry is `pos + utf8Len c`
in both views; stated with `utf8Len c` to keep offsets uniform). -/
def nlStartsStr : List Char → Nat → List Nat
  | [], _ => []
  | c :: rest, pos =>
    if c = '\n' then (pos + utf8Len c) :: nlStartsStr rest (pos + utf8Len c)
    else nlStartsStr rest (pos + utf8Len c)

/-- `LineIndex::new(text).line_starts`, character-level view. -/
def lineStartsStr (s : List Char) : List Nat := 0 :: nlStartsStr s 0

/-- LSP `Position`: zero-based line, column in UTF-16 code units. -/
structure LspPos where
  line : Nat
  character : Nat
  deriving DecidableEq

/-- `&text[n..]` for a byte count `n` at a character boundary. -/
def dropBytes : Nat → List Char → List Char
  | 0, s => s
  | _, [] => []
  | n, c :: rest => dropBytes (n - utf8Len c) rest

/-- `&text[..n]` for a byte count `n` at a character boundary. -/
def takeBytes : Nat → List Char → List Char
  | 0, _ => []
  | _, [] => []
  | n, c :: rest => c :: takeBytes (n - utf8Len c) rest

/-- The column loop of `offset_of`: consume characters while
`utf16_offset < pos.character`, accumulating UTF-16 and UTF-8 lengths;
return the byte offset. -/
def offsetInLine : List Char → Nat → Nat → Nat → Nat
  | [], _, _, byteOff => byteOff
  | c :: rest, character, u16, byteOff =>
    if character ≤ u16 then byteOff
    else offsetInLine rest character (u16 + utf16Len c) (byteOff + utf8Len c)

/-- `LineIndex::offset_of` (document.rs): clamp an LSP position to a byte
offset.  Out-of-range lines return `text.len()`; otherwise the line slice
runs from this line's start to the next line's start (or to the end of
text for the last line), and the column loop walks it. -/
def offsetOf (s : List Char) (pos : LspPos) : Nat :=
  let ls := lineStartsStr s
  if pos.line < ls.length then
    let lineStart := ls.getD pos.line 0
    let lineText :=
      if pos.line + 1 < ls.length then
        takeBytes (ls.getD (pos.line + 1) 0 - lineStart) (dropBytes lineStart s)
      else dropBytes lineStart s
    lineStart + offsetInLine lineText pos.character 0 0
  else utf8Sum s

/-- `LineIndex::position_of` (document.rs).  `binary_search` on the sorted,
duplicate-free line-start list returns `Ok(i)` exactly when the offset is
entry `i`, else `Err(insert)` with `insert` = number of entries below the
offset; in both cases `line` = (number of entries ≤ offset) - 1, rendered
here with `takeWhile` on the sorted list. -/
def positionOf (s : List Char) (offset : Nat) : LspPos :=
  let off := min offset (utf8Sum s)
  let ls := lineStartsStr s
  let line := (ls.takeWhile (fun x => x ≤ off)).length - 1
  let lineStart := ls.getD line 0
  ⟨line, utf16Sum (takeBytes (off - lineStart) (dropBytes lineStart s))⟩

/-! ### Supporting lemmas for the character-level model -/

theorem utf8Len_pos (c : Char) : 1 ≤ utf8Len c := by
  unfold utf8Len
  split
  · omega
  · split
    · omega
    · split <;> omega

theorem utf16Len_pos (c : Char) : 1 ≤ utf16Len c := by
  unfold utf16Len; split <;> omega

theorem utf8Len_newline : utf8Len '\n' = 1 := by decide

theorem utf8Sum_nil : utf8Sum [] = 0 := rfl

theorem utf8Sum_cons (c : Char) (t : List Char) :
    utf8Sum (c :: t) = utf8Len c + utf8Sum t := by simp [utf8Sum]

theorem utf8Sum_append (a b : List Char) :
    utf8Sum (a ++ b) = utf8Sum a + utf8Sum b := by simp [utf8Sum]

theorem utf16Sum_cons (c : Char) (t : List Char) :
    utf16Sum (c :: t) = utf16Len c + utf16Sum t := by simp [utf16Sum]

theorem nlStartsStr_append (a b : List Char) (pos : Nat) :
    nlStartsStr (a ++ b) pos = nlStartsStr a pos ++ nlStartsStr b (pos + utf8Sum a) := by
  induction a generalizing pos with
  | nil => simp [nlStartsStr, utf8Sum]
  | cons c rest ih =>
    simp only [List.cons_append, nlStartsStr]
    by_cases hc : c = '\n' <;>
      simp [hc, ih, utf8Sum_cons, Nat.add_assoc]

theorem nlStartsStr_mem_bounds {x : Nat} : ∀ {t : List Char} {pos : Nat},
    x ∈ nlStartsStr t pos → pos < x ∧ x ≤ pos + utf8Sum t
  | [], pos, h => by simp [nlStartsStr] at h
  | c :: rest, pos, h => by
    have h8 := utf8Len_pos c
    simp only [nlStartsStr] at h
    split at h
    · rcases List.mem_cons.1 h with h1 | h1
      · subst h1; rw [utf8Sum_cons]; omega
      · have := nlStartsStr_mem_bounds h1; rw [utf8Sum_cons]; omega
    · have := nlStartsStr_mem_bounds h; rw [utf8Sum_cons]; omega

theorem nlStartsStr_nil_of_clean : ∀ {t : List Char} (pos : Nat),
    (∀ c ∈ t, c ≠ '\n') → nlStartsStr t pos = []
  | [], _, _ => rfl
  | c :: rest, pos, h => by
    have hc : c ≠ '\n' := h c (List.mem_cons_self c rest)
    simp only [nlStartsStr, if_neg hc]
    exact nlStartsStr_nil_of_clean _ (fun d hd => h d (List.mem_cons_of_mem c hd))

/-- Every line start is a character-boundary byte offset. -/
theorem nlStartsStr_boundary {x : Nat} : ∀ {t : List Char} {pos : Nat},
    x ∈ nlStartsStr t pos → ∃ p q, t = p ++ q ∧ x = pos + utf8Sum p
  | [], pos, h => by simp [nlStartsStr] at h
  | c :: rest, pos, h => by
    simp only [nlStartsStr] at h
    split at h
    · rcases List.mem_cons.1 h with h1 | h1
      · exact ⟨[c], rest, rfl, by rw [h1]; simp [utf8Sum_cons, utf8Sum_nil]⟩
      · obtain ⟨p, q, hpq, hx⟩ := nlStartsStr_boundary h1
        exact ⟨c :: p, q, by simp [hpq], by rw [hx, utf8Sum_cons]; omega⟩
    · obtain ⟨p, q, hpq, hx⟩ := nlStartsStr_boundary h
      exact ⟨c :: p, q, by simp [hpq], by rw [hx, utf8Sum_cons]; omega⟩

/-- Split a character list at its last newline (or certify there is none). -/
theorem lastNewline_split (t : List Char) :
    (∀ c ∈ t, c ≠ '\n') ∨
      ∃ p1 p2, t = p1 ++ '\n' :: p2 ∧ ∀ c ∈ p2, c ≠ '\n' := by
  induction t using List.reverseRecOn with
  | nil => left; simp
  | append_singleton xs x ih =>
    by_cases hx : x = '\n'
    · right; exact ⟨xs, [], by simp [hx], by simp⟩
    · rcases ih with h | ⟨p1, p2, hsplit, hclean⟩
      · left
        intro c hc
        rcases List.mem_append.1 hc with h1 | h1
        · exact h c h1
        · simp at h1; subst h1; exact hx
      · right
        refine ⟨p1, p2 ++ [x], by simp [hsplit], fun c hc => ?_⟩
        rcases List.mem_append.1 hc with h1 | h1
        · exact hclean c h1
        · simp at h1; subst h1; exact hx

theorem dropBytes_zero (s : List Char) : dropBytes 0 s = s := by
  cases s <;> rfl

theorem takeBytes_zero (s : List Char) : takeBytes 0 s = [] := by
  cases s <;> rfl

theorem dropBytes_append (p q : List Char) : dropBytes (utf8Sum p) (p ++ q) = q := by
  induction p with
  | nil => rw [utf8Sum_nil]; simp [dropBytes_zero]
  | cons c rest ih =>
    have hpos := utf8Len_pos c
    rw [List.cons_append, utf8Sum_cons]
    obtain ⟨k, hk⟩ : ∃ k, utf8Len c + utf8Sum rest = k + 1 :=
      ⟨utf8Len c + utf8Sum rest - 1, by omega⟩
    rw [hk]
    show dropBytes (k + 1) (c :: (rest ++ q)) = q
    simp only [dropBytes]
    have heq : k + 1 - utf8Len c = utf8Sum rest := by omega
    rw [heq]
    exact ih

theorem takeBytes_append_of_le (p q : List Char) (n : Nat) (h : utf8Sum p ≤ n) :
    takeBytes n (p ++ q) = p ++ takeBytes (n - utf8Sum p) q := by
  induction p generalizing n with
  | nil => rw [utf8Sum_nil]; simp
  | cons c rest ih =>
    have hpos := utf8Len_pos c
    rw [utf8Sum_cons] at h
    obtain ⟨k, hk⟩ : ∃ k, n = k + 1 := ⟨n - 1, by omega⟩
    subst hk
    rw [List.cons_append]
    show c :: takeBytes (k + 1 - utf8Len c) (rest ++ q) = _
    have harg : k + 1 - utf8Len c - utf8Sum rest = k + 1 - (utf8Len c + utf8Sum rest) := by
      omega
    rw [ih (k + 1 - utf8Len c) (by omega), List.cons_append, utf8Sum_cons, harg]

theorem takeBytes_exact (p q : List Char) : takeBytes (utf8Sum p) (p ++ q) = p := by
  rw [takeBytes_append_of_le p q _ (Nat.le_refl _), Nat.sub_self, takeBytes_zero,
    List.append_nil]

theorem utf8Sum_takeBytes_le : ∀ (n : Nat) (q : List Char),
    utf8Sum (takeBytes n q) ≤ utf8Sum q
  | 0, q => by rw [takeBytes_zero, utf8Sum_nil]; exact Nat.zero_le _
  | n + 1, [] => Nat.le_refl _
  | n + 1, c :: rest => by
    have hstep : takeBytes (n + 1) (c :: rest) = c :: takeBytes (n + 1 - utf8Len c) rest := rfl
    rw [hstep, utf8Sum_cons, utf8Sum_cons]
    have := utf8Sum_takeBytes_le (n + 1 - utf8Len c) rest
    omega

theorem offsetInLine_exact : ∀ (p q : List Char) (u b : Nat),
    offsetInLine (p ++ q) (u + utf16Sum p) u b = b + utf8Sum p
  | [], q, u, b => by
    cases q with
    | nil => simp [offsetInLine, utf8Sum, utf16Sum]
    | cons c rest => simp [offsetInLine, utf8Sum, utf16Sum]
  | c :: p', q, u, b => by
    have h16 := utf16Len_pos c
    rw [List.cons_append, utf16Sum_cons]
    show offsetInLine (c :: (p' ++ q)) _ u b = _
    rw [offsetInLine, if_neg (by omega)]
    have halign : u + (utf16Len c + utf16Sum p') = (u + utf16Len c) + utf16Sum p' := by omega
    rw [halign, offsetInLine_exact p' q (u + utf16Len c) (b + utf8Len c), utf8Sum_cons]
    omega

theorem offsetInLine_le : ∀ (t : List Char) (chr u b : Nat),
    offsetInLine t chr u b ≤ b + utf8Sum t
  | [], _, _, b => by rw [offsetInLine, utf8Sum_nil]; omega
  | c :: rest, chr, u, b => by
    rw [offsetInLine, utf8Sum_cons]
    split
    · omega
    · have := offsetInLine_le rest chr (u + utf16Len c) (b + utf8Len c)
      omega

theorem offsetInLine_all : ∀ (t : List Char) (chr u b : Nat),
    u + utf16Sum t ≤ chr → offsetInLine t chr u b = b + utf8Sum t
  | [], _, _, b, _ => by rw [offsetInLine, utf8Sum_nil]; omega
  | c :: rest, chr, u, b, h => by
    have h16 := utf16Len_pos c
    rw [utf16Sum_cons] at h
    rw [offsetInLine, if_neg (by omega), utf8Sum_cons,
      offsetInLine_all rest chr (u + utf16Len c) (b + utf8Len c) (by omega)]
    omega

theorem takeWhile_prefix_getD {p : Nat → Bool} {l P : List Nat} {i d : Nat}
    (hP : l.takeWhile p = P) (hi : i < P.length) : l.getD i d = P.getD i d := by
  have hdecomp : l = P ++ l.dropWhile p := by
    rw [← hP, List.takeWhile_append_dropWhile]
  rw [hdecomp, List.getD_append _ _ _ _ hi]

/-- Shared final step: once the start `L0` of the cursor line and the line's
leading characters `p2` are identified, `offset_of` lands at `L0 + |p2|`. -/
theorem offsetOf_reduce (s p2 rest2 : List Char) (line L0 : Nat)
    (hline : line < (lineStartsStr s).length)
    (hL0 : (lineStartsStr s).getD line 0 = L0)
    (hdrop : dropBytes L0 s = p2 ++ rest2)
    (hnext : line + 1 < (lineStartsStr s).length →
      L0 + utf8Sum p2 ≤ (lineStartsStr s).getD (line + 1) 0) :
    offsetOf s ⟨line, utf16Sum p2⟩ = L0 + utf8Sum p2 := by
  unfold offsetOf
  simp only [if_pos hline, hL0]
  by_cases hn : line + 1 < (lineStartsStr s).length
  · rw [if_pos hn, hdrop,
      takeBytes_append_of_le p2 rest2 _ (by have := hnext hn; omega)]
    have := offsetInLine_exact p2 (takeBytes ((lineStartsStr s).getD (line + 1) 0 - L0 - utf8Sum p2) rest2) 0 0
    simpa using this
  · rw [if_neg hn, hdrop]
    have := offsetInLine_exact p2 rest2 0 0
    simpa using this

/-- The round trip at a boundary offset, with the boundary given as an
explicit decomposition of the text. -/
theorem roundtrip_aux (pre suf : List Char) :
    offsetOf (pre ++ suf) (positionOf (pre ++ suf) (utf8Sum pre)) = utf8Sum pre := by
  have hmin : min (utf8Sum pre) (utf8Sum (pre ++ suf)) = utf8Sum pre := by
    rw [utf8Sum_append]; omega
  have hsplitls : lineStartsStr (pre ++ suf)
      = 0 :: (nlStartsStr pre 0 ++ nlStartsStr suf (utf8Sum pre)) := by
    unfold lineStartsStr
    rw [nlStartsStr_append]
    simp
  have hsufgt : ∀ x ∈ nlStartsStr suf (utf8Sum pre), utf8Sum pre < x := fun x hx =>
    (nlStartsStr_mem_bounds hx).1
  have hprele : ∀ x ∈ nlStartsStr pre 0, x ≤ utf8Sum pre := fun x hx => by
    have := nlStartsStr_mem_bounds hx; omega
  -- The searched prefix of the line-start list.
  have htw : (lineStartsStr (pre ++ suf)).takeWhile (fun x => x ≤ utf8Sum pre)
      = 0 :: nlStartsStr pre 0 := by
    rw [hsplitls]
    have hshape : (0 :: (nlStartsStr pre 0 ++ nlStartsStr suf (utf8Sum pre)))
        = (0 :: nlStartsStr pre 0) ++ nlStartsStr suf (utf8Sum pre) := by simp
    rw [hshape, takeWhile_append_all _ _ (fun a ha => by
      rcases List.mem_cons.1 ha with h1 | h1
      · subst h1; simp
      · have := hprele a h1; simp only [decide_eq_true_eq]; omega)]
    rw [takeWhile_nil_of_none _ (fun x hx => by
      have := hsufgt x hx; simp only [decide_eq_false_iff_not]; omega)]
    simp
  rcases lastNewline_split pre with hclean | ⟨p1, p2, hpre2, hp2clean⟩
  · -- No newline before the cursor: line 0, line start 0.
    have hnil : nlStartsStr pre 0 = [] := nlStartsStr_nil_of_clean 0 hclean
    have hget0 : (lineStartsStr (pre ++ suf)).getD 0 0 = 0 := by
      rw [hsplitls]; rfl
    have hpos : positionOf (pre ++ suf) (utf8Sum pre) = ⟨0, utf16Sum pre⟩ := by
      unfold positionOf
      simp only [hmin, htw, hnil]
      have hlen1 : (([0] : List Nat)).length - 1 = 0 := rfl
      rw [hlen1, hget0, Nat.sub_zero, dropBytes_zero, takeBytes_exact]
    rw [hpos]
    have hred : offsetOf (pre ++ suf) ⟨0, utf16Sum pre⟩ = 0 + utf8Sum pre := by
      apply offsetOf_reduce (pre ++ suf) pre suf 0 0
      · rw [hsplitls]; simp
      · exact hget0
      · rw [dropBytes_zero]
      · intro h1
        rw [hsplitls] at h1 ⊢
        simp only [List.length_cons, hnil, List.nil_append] at h1 ⊢
        cases hsuf : nlStartsStr suf (utf8Sum pre) with
        | nil => rw [hsuf] at h1; simp at h1
        | cons c0 cr =>
          have hc0 : utf8Sum pre < c0 := by
            apply hsufgt; rw [hsuf]; exact List.mem_cons_self c0 cr
          simp only [List.getD_cons_succ, List.getD_cons_zero]
          omega
    rw [hred]
    omega
  · -- The cursor line starts just after the last newline of `pre`.
    have hnlpre : nlStartsStr pre 0
        = nlStartsStr p1 0 ++ [utf8Sum p1 + 1] := by
      rw [hpre2, nlStartsStr_append]
      congr 1
      show nlStartsStr ('\n' :: p2) (0 + utf8Sum p1) = _
      rw [nlStartsStr]
      rw [if_pos rfl, utf8Len_newline,
        nlStartsStr_nil_of_clean (0 + utf8Sum p1 + 1) hp2clean]
      simp
    have hb : utf8Sum pre = (utf8Sum p1 + 1) + utf8Sum p2 := by
      rw [hpre2, utf8Sum_append, utf8Sum_cons, utf8Len_newline]
      omega
    have hP : (0 :: nlStartsStr pre 0)
        = (0 :: nlStartsStr p1 0) ++ [utf8Sum p1 + 1] := by
      rw [hnlpre]; simp
    set L0 := utf8Sum p1 + 1 with hL0def
    set line := (nlStartsStr p1 0).length + 1 with hline_def
    have hPlen : (0 :: nlStartsStr pre 0).length = line + 1 := by
      rw [hP]; simp [hline_def]
    have hgetP : (0 :: nlStartsStr pre 0).getD line 0 = L0 := by
      rw [hP, List.getD_append_right _ _ _ _ (by simp [hline_def])]
      simp [hline_def]
    have hget : (lineStartsStr (pre ++ suf)).getD line 0 = L0 := by
      rw [takeWhile_prefix_getD htw (by rw [hPlen]; omega)]
      exact hgetP
    have hdropL0 : dropBytes L0 (pre ++ suf) = p2 ++ suf := by
      have hshape : pre ++ suf = (p1 ++ ['\n']) ++ (p2 ++ suf) := by
        rw [hpre2]; simp
      have hsum : utf8Sum (p1 ++ ['\n']) = L0 := by
        rw [utf8Sum_append, utf8Sum_cons, utf8Sum_nil, utf8Len_newline]
      rw [hshape, ← hsum, dropBytes_append]
    have hpos : positionOf (pre ++ suf) (utf8Sum pre) = ⟨line, utf16Sum p2⟩ := by
      unfold positionOf
      simp only [hmin, htw]
      have h1 : (0 :: nlStartsStr pre 0).length - 1 = line := by rw [hPlen]; omega
      rw [h1, hget, hdropL0]
      have h3 : utf8Sum pre - L0 = utf8Sum p2 := by omega
      rw [h3, takeBytes_exact]
    rw [hpos]
    have hlslen : (lineStartsStr (pre ++ suf)).length
        = line + 1 + (nlStartsStr suf (utf8Sum pre)).length := by
      rw [hsplitls]
      have hshape : (0 :: (nlStartsStr pre 0 ++ nlStartsStr suf (utf8Sum pre)))
          = (0 :: nlStartsStr pre 0) ++ nlStartsStr suf (utf8Sum pre) := by simp
      rw [hshape, List.length_append, hPlen]
    have hred : offsetOf (pre ++ suf) ⟨line, utf16Sum p2⟩ = L0 + utf8Sum p2 := by
      apply offsetOf_reduce (pre ++ suf) p2 suf line L0
      · omega
      · exact hget
      · exact hdropL0
      · intro hn
        rw [hlslen] at hn
        cases hsuf : nlStartsStr suf (utf8Sum pre) with
        | nil => rw [hsuf] at hn; simp at hn
        | cons c0 cr =>
          have hc0 : utf8Sum pre < c0 := by
            apply hsufgt; rw [hsuf]; exact List.mem_cons_self c0 cr
          have hnextval : (lineStartsStr (pre ++ suf)).getD (line + 1) 0 = c0 := by
            rw [hsplitls]
            have hshape : (0 :: (nlStartsStr pre 0 ++ nlStartsStr suf (utf8Sum pre)))
                = (0 :: nlStartsStr pre 0) ++ nlStartsStr suf (utf8Sum pre) := by simp
            rw [hshape, List.getD_append_right _ _ _ _ (by rw [hPlen])]
            rw [hPlen, Nat.sub_self, hsuf]
            rfl
          rw [hnextval]
          omega
    rw [hred]
    omega

/-! ### Agreement of the byte-level and character-level line scans -/

theorem utf8Bytes_length (c : Char) : (utf8Bytes c).length = utf8Len c := by
  unfold utf8Bytes utf8Len
  by_cases h1 : c.toNat < 0x80
  · simp [h1]
  · by_cases h2 : c.toNat < 0x800
    · simp [h1, h2]
    · by_cases h3 : c.toNat < 0x10000 <;> simp [h1, h2, h3]

theorem char_eq_newline_of_toNat {c : Char} (h : c.toNat = 10) : c = '\n' := by
  have hv : c.val = (10 : UInt32) := by
    apply UInt32.toNat.inj
    simpa [Char.toNat] using h
  exact Char.ext hv

theorem nlStarts_utf8Bytes_nil {c : Char} (hc : c ≠ '\n') (pos : Nat) :
    nlStarts (utf8Bytes c) pos = [] := by
  have h10 : c.toNat ≠ 10 := fun h => hc (char_eq_newline_of_toNat h)
  unfold utf8Bytes
  split
  · simp only [nlStarts, if_neg h10]
  · split
    · simp only [nlStarts]
      rw [if_neg (by omega), if_neg (by omega)]
    · split
      · simp only [nlStarts]
        rw [if_neg (by omega), if_neg (by omega), if_neg (by omega)]
      · simp only [nlStarts]
        rw [if_neg (by omega), if_neg (by omega), if_neg (by omega), if_neg (by omega)]

theorem nlStarts_flatten_utf8 (s : List Char) (pos : Nat) :
    nlStarts ((s.map utf8Bytes).flatten) pos = nlStartsStr s pos := by
  induction s generalizing pos with
  | nil => rfl
  | cons c rest ih =>
    rw [List.map_cons, List.flatten_cons, nlStarts_append, utf8Bytes_length]
    by_cases hc : c = '\n'
    · subst hc
      rw [show utf8Bytes '\n' = [10] from rfl]
      show (pos + 1) :: nlStarts [] (pos + 1) ++ _ = _
      rw [nlStartsStr, if_pos rfl, utf8Len_newline, ih]
      rfl
    · rw [nlStarts_utf8Bytes_nil hc, nlStartsStr, if_neg hc, ih]
      rfl

/-- The byte scan of `LineIndex::new` applied to the UTF-8 encoding of a
text computes exactly the character-level line starts used by
`offset_of`/`position_of`: the two views of the index agree. -/
theorem lineIndexNew_utf8_encode (s : List Char) :
    lineIndexNew ((s.map utf8Bytes).flatten) = lineStartsStr s := by
  unfold lineIndexNew lineStartsStr
  rw [nlStarts_flatten_utf8]

/-! ### Claims C2, C7, C5 -/

/-- **C2.** For every document text and every byte offset `b` lying on a
character boundary (hence `0 ≤ b ≤ len`), converting `b` to an LSP position
and back is the identity: `offset_of(position_of(b)) = b`. -/
theorem claim_C2_position_roundtrip (s : List Char) (b : Nat)
    (h : ∃ k, b = utf8Sum (s.take k)) :
    offsetOf s (positionOf s b) = b := by
  obtain ⟨k, hk⟩ := h
  have haux := roundtrip_aux (s.take k) (s.drop k)
  rw [List.take_append_drop] at haux
  rw [hk]
  exact haux

/-- Witness for C2: byte offset 9 in `"hello\nworld\n"` (the round-trip test
of document.rs). -/
theorem claim_C2_witness :
    (∃ k, 9 = utf8Sum ("hello\nworld\n".toList.take k)) ∧
      offsetOf "hello\nworld\n".toList (positionOf "hello\nworld\n".toList 9) = 9 :=
  ⟨⟨9, by decide⟩, claim_C2_position_roundtrip "hello\nworld\n".toList 9 ⟨9, by decide⟩⟩

/-- **C7.** For a one-line document of a surrogate-pair code point followed by
ASCII `X`, position `(0, 3)` maps to byte offset 5: columns count UTF-16
code units, not bytes or code points. -/
theorem claim_C7_utf16_column (c : Char) (h : utf16Len c = 2) :
    offsetOf [c, 'X'] ⟨0, 3⟩ = 5 := by
  have hge : ¬ c.toNat < 0x10000 := by
    intro hlt
    rw [utf16Len, if_pos hlt] at h
    exact absurd h (by omega)
  have h8 : utf8Len c = 4 := by
    rw [utf8Len, if_neg (by omega), if_neg (by omega), if_neg hge]
  have hnl : c ≠ '\n' := by
    intro he
    subst he
    exact hge (by decide)
  have hls : lineStartsStr [c, 'X'] = [0] := by
    unfold lineStartsStr
    rw [nlStartsStr, if_neg hnl, nlStartsStr, if_neg (by decide), nlStartsStr]
  unfold offsetOf
  simp only [hls, List.length_cons, List.length_nil, List.getD_cons_zero]
  rw [if_pos (by omega), if_neg (by omega), dropBytes_zero]
  rw [offsetInLine, if_neg (by omega)]
  rw [offsetInLine, if_neg (by rw [h]; omega)]
  rw [offsetInLine, h8]
  decide

/-- Witness for C7 at U+1F600 (the emoji of the document.rs test). -/
theorem claim_C7_witness :
    utf16Len '😀' = 2 ∧ offsetOf ['😀', 'X'] ⟨0, 3⟩ = 5 :=
  ⟨by decide, claim_C7_utf16_column '😀' (by decide)⟩

/-- Every entry of the line-start list is a character-boundary byte offset. -/
theorem lineStartsStr_boundary {x : Nat} {s : List Char} (h : x ∈ lineStartsStr s) :
    ∃ p q, s = p ++ q ∧ x = utf8Sum p := by
  rcases List.mem_cons.1 h with h1 | h1
  · exact ⟨[], s, rfl, by rw [h1, utf8Sum_nil]⟩
  · obtain ⟨p, q, hpq, hx⟩ := nlStartsStr_boundary h1
    exact ⟨p, q, hpq, by rw [hx]; omega⟩

theorem getD_map_lt (f : Nat → Nat) (L : List Nat) (i : Nat) (h : i < L.length) :
    (L.map f).getD i 0 = f (L.getD i 0) := by
  rw [List.getD_eq_getElem _ _ (by simpa using h), List.getElem_map,
    List.getD_eq_getElem _ _ h]

/-- Split a character list at its first newline (or certify there is none). -/
theorem firstNewline_split (s : List Char) :
    (∀ c ∈ s, c ≠ '\n') ∨
      ∃ a b, s = a ++ '\n' :: b ∧ ∀ c ∈ a, c ≠ '\n' := by
  induction s with
  | nil => left; simp
  | cons c t ih =>
    by_cases hc : c = '\n'
    · right
      exact ⟨[], t, by simp [hc], by simp⟩
    · rcases ih with h | ⟨a, b, hsplit, hclean⟩
      · left
        intro d hd
        rcases List.mem_cons.1 hd with h1 | h1
        · subst h1; exact hc
        · exact h d h1
      · right
        refine ⟨c :: a, b, by simp [hsplit], fun d hd => ?_⟩
        rcases List.mem_cons.1 hd with h1 | h1
        · subst h1; exact hc
        · exact hclean d h1

/-- The scan position only shifts the emitted offsets. -/
theorem nlStartsStr_shift : ∀ (t : List Char) (pos : Nat),
    nlStartsStr t pos = (nlStartsStr t 0).map (fun x => x + pos)
  | [], _ => rfl
  | c :: rest, pos => by
    simp only [nlStartsStr]
    by_cases hc : c = '\n'
    · rw [if_pos hc, if_pos hc, nlStartsStr_shift rest (pos + utf8Len c),
        nlStartsStr_shift rest (0 + utf8Len c), List.map_cons, List.map_map]
      congr 1
      · show pos + utf8Len c = 0 + utf8Len c + pos
        omega
      · apply List.map_congr_left
        intro x hx
        show x + (pos + utf8Len c) = x + (0 + utf8Len c) + pos
        omega
    · rw [if_neg hc, if_neg hc, nlStartsStr_shift rest (pos + utf8Len c),
        nlStartsStr_shift rest (0 + utf8Len c), List.map_map]
      apply List.map_congr_left
      intro x hx
      show x + (pos + utf8Len c) = x + (0 + utf8Len c) + pos
      omega

/-- Prepending one newline-free line (and its newline) to a text shifts all
remaining line starts past it. -/
theorem lineStartsStr_split (a b : List Char) (hclean : ∀ c ∈ a, c ≠ '\n') :
    lineStartsStr (a ++ '\n' :: b)
      = 0 :: (lineStartsStr b).map (fun x => x + (utf8Sum a + 1)) := by
  unfold lineStartsStr
  rw [nlStartsStr_append, nlStartsStr_nil_of_clean 0 hclean, List.nil_append,
    Nat.zero_add]
  rw [nlStartsStr, if_pos rfl, utf8Len_newline,
    nlStartsStr_shift b (utf8Sum a + 1), List.map_cons]
  simp

/-- Consecutive entries of the line-start list delimit one line's slice: the
text splits as `p ++ r ++ rest` with the two starts at byte offsets `|p|`
and `|p| + |r|`. -/
theorem lineStarts_consecutive (s : List Char) (l : Nat)
    (h : l + 1 < (lineStartsStr s).length) :
    ∃ p r rest, s = p ++ r ++ rest ∧
      (lineStartsStr s).getD l 0 = utf8Sum p ∧
      (lineStartsStr s).getD (l + 1) 0 = utf8Sum p + utf8Sum r := by
  rcases firstNewline_split s with hclean | ⟨a, b, hsplit, haclean⟩
  · exfalso
    have hnil : nlStartsStr s 0 = [] := nlStartsStr_nil_of_clean 0 hclean
    unfold lineStartsStr at h
    rw [hnil] at h
    simp at h
  · have hsp : lineStartsStr s
        = 0 :: (lineStartsStr b).map (fun x => x + (utf8Sum a + 1)) := by
      rw [hsplit]
      exact lineStartsStr_split a b haclean
    cases l with
    | zero =>
      refine ⟨[], a ++ ['\n'], b, ?_, ?_, ?_⟩
      · rw [hsplit]; simp
      · rw [hsp]; rfl
      · rw [hsp, List.getD_cons_succ,
          getD_map_lt _ _ 0 (by unfold lineStartsStr; simp)]
        have h0 : (lineStartsStr b).getD 0 0 = 0 := rfl
        rw [h0]
        simp [utf8Sum_append, utf8Sum_cons, utf8Sum_nil, utf8Len_newline]
    | succ l' =>
      have hblen : l' + 1 < (lineStartsStr b).length := by
        rw [hsp] at h
        simp at h
        omega
      obtain ⟨p', r', rest', hb, hc1, hc2⟩ := lineStarts_consecutive b l' hblen
      refine ⟨a ++ '\n' :: p', r', rest', ?_, ?_, ?_⟩
      · rw [hsplit, hb]; simp
      · rw [hsp, List.getD_cons_succ, getD_map_lt _ _ l' (by omega), hc1]
        simp [utf8Sum_append, utf8Sum_cons, utf8Len_newline]
        omega
      · rw [hsp, List.getD_cons_succ, getD_map_lt _ _ (l' + 1) (by omega), hc2]
        simp [utf8Sum_append, utf8Sum_cons, utf8Len_newline]
        omega
termination_by s.length
decreasing_by
  rw [hsplit]
  simp
  omega

/-- **C5, amended.**  What the code guarantees about clamping:
(1) `offset_of` never exceeds `len()`;
(2) a line past the last line yields `len()`;
(3) `position_of` treats any offset beyond `len()` as `len()`;
(4) a character past the end of the *last* line yields `len()`;
(5) a character past the end of a *non-final* line's slice (which includes
its trailing newline) yields the next line's start offset, not `len()`.
The original claim asserted that a character overflow on any line yields
`len()`; that is false — see the counterexample, an instance of (5). -/
theorem claim_C5_clamping_amended :
    (∀ (s : List Char) (pos : LspPos), offsetOf s pos ≤ utf8Sum s) ∧
    (∀ (s : List Char) (pos : LspPos), (lineStartsStr s).length ≤ pos.line →
        offsetOf s pos = utf8Sum s) ∧
    (∀ (s : List Char) (off : Nat), utf8Sum s ≤ off →
        positionOf s off = positionOf s (utf8Sum s)) ∧
    (∀ (s : List Char) (chr : Nat),
        utf16Sum (dropBytes ((lineStartsStr s).getD ((lineStartsStr s).length - 1) 0) s)
            ≤ chr →
        offsetOf s ⟨(lineStartsStr s).length - 1, chr⟩ = utf8Sum s) ∧
    (∀ (s : List Char) (l chr : Nat), l + 1 < (lineStartsStr s).length →
        utf16Sum (takeBytes ((lineStartsStr s).getD (l + 1) 0 - (lineStartsStr s).getD l 0)
            (dropBytes ((lineStartsStr s).getD l 0) s)) ≤ chr →
        offsetOf s ⟨l, chr⟩ = (lineStartsStr s).getD (l + 1) 0) := by
  refine ⟨?_, ?_, ?_, ?_, ?_⟩
  · intro s pos
    unfold offsetOf
    by_cases hl : pos.line < (lineStartsStr s).length
    · simp only [if_pos hl]
      have hmem : (lineStartsStr s).getD pos.line 0 ∈ lineStartsStr s := by
        rw [List.getD_eq_getElem _ _ hl]
        exact List.getElem_mem _
      obtain ⟨p, q, hpq, hx⟩ := lineStartsStr_boundary hmem
      have hdrop : dropBytes ((lineStartsStr s).getD pos.line 0) s = q := by
        rw [hx]
        conv_lhs => rw [hpq]
        exact dropBytes_append p q
      have hsum : utf8Sum s = (lineStartsStr s).getD pos.line 0 + utf8Sum q := by
        rw [hx]
        conv_lhs => rw [hpq]
        exact utf8Sum_append p q
      by_cases hn : pos.line + 1 < (lineStartsStr s).length
      · simp only [if_pos hn, hdrop]
        have h1 := offsetInLine_le
          (takeBytes ((lineStartsStr s).getD (pos.line + 1) 0
            - (lineStartsStr s).getD pos.line 0) q) pos.character 0 0
        have h2 := utf8Sum_takeBytes_le
          ((lineStartsStr s).getD (pos.line + 1) 0
            - (lineStartsStr s).getD pos.line 0) q
        omega
      · simp only [if_neg hn, hdrop]
        have h1 := offsetInLine_le q pos.character 0 0
        omega
    · simp only [if_neg hl]
      omega
  · intro s pos h
    unfold offsetOf
    rw [if_neg (by omega)]
  · intro s off h
    unfold positionOf
    rw [Nat.min_eq_right h, Nat.min_self]
  · intro s chr h
    have hlen : 1 ≤ (lineStartsStr s).length := by
      unfold lineStartsStr; simp
    have hl : (lineStartsStr s).length - 1 < (lineStartsStr s).length := by omega
    unfold offsetOf
    simp only [if_pos hl, if_neg (show ¬ ((lineStartsStr s).length - 1 + 1
      < (lineStartsStr s).length) by omega)]
    have hmem : (lineStartsStr s).getD ((lineStartsStr s).length - 1) 0 ∈ lineStartsStr s := by
      rw [List.getD_eq_getElem _ _ hl]
      exact List.getElem_mem _
    obtain ⟨p, q, hpq, hx⟩ := lineStartsStr_boundary hmem
    have hdrop : dropBytes ((lineStartsStr s).getD ((lineStartsStr s).length - 1) 0) s
        = q := by
      rw [hx]
      conv_lhs => rw [hpq]
      exact dropBytes_append p q
    have hsum : utf8Sum s = (lineStartsStr s).getD ((lineStartsStr s).length - 1) 0
        + utf8Sum q := by
      rw [hx]
      conv_lhs => rw [hpq]
      exact utf8Sum_append p q
    rw [hdrop] at h
    simp only [hdrop]
    rw [offsetInLine_all q chr 0 0 (by omega)]
    omega
  · intro s l chr hl hchr
    obtain ⟨p, r, rest, hs, hcur, hnext⟩ := lineStarts_consecutive s l hl
    have hl0 : l < (lineStartsStr s).length := by omega
    have hdrop : dropBytes ((lineStartsStr s).getD l 0) s = r ++ rest := by
      rw [hcur]
      conv_lhs => rw [hs, List.append_assoc]
      exact dropBytes_append p (r ++ rest)
    have hgap : (lineStartsStr s).getD (l + 1) 0 - (lineStartsStr s).getD l 0
        = utf8Sum r := by
      rw [hcur, hnext]
      omega
    have htake : takeBytes ((lineStartsStr s).getD (l + 1) 0 - (lineStartsStr s).getD l 0)
        (dropBytes ((lineStartsStr s).getD l 0) s) = r := by
      rw [hdrop, hgap]
      exact takeBytes_exact r rest
    rw [htake] at hchr
    unfold offsetOf
    simp only [if_pos hl0, if_pos hl]
    rw [htake, offsetInLine_all r chr 0 0 (by omega)]
    rw [hcur, hnext]
    omega

/-- **C5, counterexample.**  In the two-line text `"ab\ncd"`, the out-of-range
position `(0, 10)` maps to byte offset 3 (the start of line 1), not to
`len() = 5`. -/
theorem claim_C5_counterexample :
    offsetOf ['a', 'b', '\n', 'c', 'd'] ⟨0, 10⟩ = 3 ∧
      utf8Sum ['a', 'b', '\n', 'c', 'd'] = 5 ∧
      offsetOf ['a', 'b', '\n', 'c', 'd'] ⟨0, 10⟩
        ≠ utf8Sum ['a', 'b', '\n', 'c', 'd'] := by
  refine ⟨by decide, by decide, by decide⟩

/-- Witness for the amended C5 at concrete inputs. -/
theorem claim_C5_witness :
    offsetOf ['a', 'b'] ⟨3, 0⟩ = utf8Sum ['a', 'b'] ∧
      positionOf ['a', 'b'] 7 = positionOf ['a', 'b'] (utf8Sum ['a', 'b']) ∧
      offsetOf ['a', 'b'] ⟨(lineStartsStr ['a', 'b']).length - 1, 9⟩
        = utf8Sum ['a', 'b'] ∧
      offsetOf ['a', 'b', '\n', 'c', 'd'] ⟨0, 10⟩
        = (lineStartsStr ['a', 'b', '\n', 'c', 'd']).getD 1 0 := by
  refine ⟨?_, ?_, ?_, ?_⟩
  · exact claim_C5_clamping_amended.2.1 ['a', 'b'] ⟨3, 0⟩ (by decide)
  · exact claim_C5_clamping_amended.2.2.1 ['a', 'b'] 7 (by decide)
  · exact claim_C5_clamping_amended.2.2.2.1 ['a', 'b'] 9 (by decide)
  · exact claim_C5_clamping_amended.2.2.2.2 ['a', 'b', '\n', 'c', 'd'] 0 10
      (by decide) (by decide)

/-! ## JSON values (`serde_json::Value`)

Objects are association lists in input order (the crate is built with ordered
maps; lookups take the first binding, which agrees with map semantics on the
duplicate-free objects produced by parsing).  JSON numbers are modelled as
rationals; `as_f64` returns the number unchanged and no floating-point
arithmetic is performed on it anywhere in the embedded fragment. -/

inductive JValue where
  | null
  | bool (b : Bool)
  | num (n : Rat)
  | str (s : String)
  | arr (xs : List JValue)
  | obj (m : List (String × JValue))

/-- `serde_json::Map::get`. -/
def jget (m : List (String × JValue)) (k : String) : Option JValue :=
  (m.find? (fun kv => kv.1 == k)).map (fun kv => kv.2)

def JValue.asStr : JValue → Option String
  | .str s => some s
  | _ => none

def JValue.asBool : JValue → Option Bool
  | .bool b => some b
  | _ => none

/-- `Value::as_f64` (every modelled number is representable unchanged). -/
def JValue.asF64 : JValue → Option Rat
  | .num n => some n
  | _ => none

/-- `Value::as_u64`: only non-negative integers below 2^64. -/
def JValue.asU64 : JValue → Option Nat
  | .num n => if n.den = 1 ∧ 0 ≤ n.num ∧ n.num < 2 ^ 64 then some n.num.toNat else none
  | _ => none

def JValue.asArray : JValue → Option (List JValue)
  | .arr xs => some xs
  | _ => none

def JValue.asObject : JValue → Option (List (String × JValue))
  | .obj m => some m
  | _ => none

/-! ## Compiled schema (`schema/types.rs`) -/

/-- `str::contains` for string literals. -/
def strContains (s pat : String) : Bool := decide (pat.toList <:+: s.toList)

inductive SchemaDraft where
  | draft4
  | draft6
  | draft7
  | draft2019_09
  | draft2020_12
  deriving DecidableEq

/-- `SchemaDraft::from_schema_uri`. -/
def SchemaDraft.fromSchemaUri (uri : String) : SchemaDraft :=
  if strContains uri "draft-04" || strContains uri "draft/04" then .draft4
  else if strContains uri "draft-06" || strContains uri "draft/06" then .draft6
  else if strContains uri "draft-07" || strContains uri "draft/07" then .draft7
  else if strContains uri "2019-09" then .draft2019_09
  else if strContains uri "2020-12" then .draft2020_12
  else .draft7

inductive SchemaType where
  | string
  | number
  | integer
  | boolean
  | null
  | array
  | object
  deriving DecidableEq

/-- `SchemaType::as_str`; also the lowercased `Debug` rendering used by
completion `detail`. -/
def SchemaType.asStr : SchemaType → String
  | .string => "string"
  | .number => "number"
  | .integer => "integer"
  | .boolean => "boolean"
  | .null => "null"
  | .array => "array"
  | .object => "object"

def parseSchemaType (s : String) : Option SchemaType :=
  if s == "string" then some .string
  else if s == "number" then some .number
  else if s == "integer" then some .integer
  else if s == "boolean" then some .boolean
  else if s == "null" then some .null
  else if s == "array" then some .array
  else if s == "object" then some .object
  else none

/-- `SchemaOrBool`: a sub-schema or a boolean (`true` accept-all / `false`
reject-all). -/
inductive SchemaOrBool (α : Type) where
  | schema (s : α)
  | bool (b : Bool)

/-- `SchemaOrBool::as_schema`. -/
def SchemaOrBool.asSchema {α : Type} : SchemaOrBool α → Option α
  | .schema s => some s
  | .bool _ => none

/-- `Dependency`: required property names or a sub-schema. -/
inductive SchemaDependency (α : Type) where
  | properties (ps : List String)
  | schema (s : α)

/-- Draft-4 boolean vs draft-6+ numeric exclusive limits. -/
inductive ExclusiveLimit where
  | bool (b : Bool)
  | num (n : Rat)

/-- VS Code `defaultSnippets` entry. -/
structure DefaultSnippet where
  label : Option String := none
  description : Option String := none
  body : Option JValue := none

/-- The non-recursive fields of `JsonSchema` (metadata, type/enum/const,
numeric, string and size constraints, `required`, `dependentRequired`,
`$ref`, snippets), with the same defaults as `JsonSchema::default()`. -/
structure SchemaScalars where
  id : Option String := none
  schemaDraft : Option String := none
  draft : SchemaDraft := .draft7
  title : Option String := none
  description : Option String := none
  markdownDescription : Option String := none
  default : Option JValue := none
  examples : List JValue := []
  deprecated : Bool := false
  deprecationMessage : Option String := none
  errorMessage : Option String := none
  patternErrorMessage : Option String := none
  doNotSuggest : Bool := false
  enumDescriptions : List String := []
  markdownEnumDescriptions : List String := []
  types : List SchemaType := []
  enumValues : List JValue := []
  constValue : Option JValue := none
  minimum : Option Rat := none
  maximum : Option Rat := none
  exclusiveMinimum : Option ExclusiveLimit := none
  exclusiveMaximum : Option ExclusiveLimit := none
  multipleOf : Option Rat := none
  minLength : Option Nat := none
  maxLength : Option Nat := none
  pattern : Option String := none
  format : Option String := none
  minItems : Option Nat := none
  maxItems : Option Nat := none
  uniqueItems : Bool := false
  minContains : Option Nat := none
  maxContains : Option Nat := none
  required : List String := []
  minProperties : Option Nat := none
  maxProperties : Option Nat := none
  dependentRequired : List (String × List String) := []
  reference : Option String := none
  defaultSnippets : List DefaultSnippet := []

/-- The sub-schema-carrying fields of `JsonSchema`, parameterised by the
schema type for the nested-inductive definition below.  The Rust struct
stores these inline (behind `Arc`/`Box`, i.e. plain shared subterms here);
grouping them apart from the scalar fields is only packaging. -/
structure SchemaRec (α : Type) where
  items : Option (SchemaOrBool α) := none
  prefixItems : List α := []
  additionalItems : Option (SchemaOrBool α) := none
  contains : Option α := none
  properties : List (String × α) := []
  additionalProperties : Option (SchemaOrBool α) := none
  patternProperties : List (String × α) := []
  propertyNames : Option α := none
  dependencies : List (String × SchemaDependency α) := []
  dependentSchemas : List (String × α) := []
  allOf : List α := []
  anyOf : List α := []
  oneOf : List α := []
  not : Option α := none
  ifSchema : Option α := none
  thenSchema : Option α := none
  elseSchema : Option α := none
  definitions : List (String × α) := []
  defs : List (String × α) := []

/-- `JsonSchema` (schema/types.rs): one constructor holding the scalar and
the recursive field groups. -/
inductive JsonSchema where
  | mk (scalars : SchemaScalars) (sub : SchemaRec JsonSchema)

/-- `JsonSchema::default()`. -/
def JsonSchema.defaultSchema : JsonSchema := .mk {} {}

def JsonSchema.scalars : JsonSchema → SchemaScalars
  | .mk sc _ => sc

def JsonSchema.sub : JsonSchema → SchemaRec JsonSchema
  | .mk _ r => r

def JsonSchema.properties (s : JsonSchema) : List (String × JsonSchema) := s.sub.properties

def JsonSchema.prefixItems (s : JsonSchema) : List JsonSchema := s.sub.prefixItems

def JsonSchema.items (s : JsonSchema) : Option (SchemaOrBool JsonSchema) := s.sub.items

def JsonSchema.additionalProperties (s : JsonSchema) : Option (SchemaOrBool JsonSchema) :=
  s.sub.additionalProperties

def JsonSchema.allOf (s : JsonSchema) : List JsonSchema := s.sub.allOf

def JsonSchema.anyOf (s : JsonSchema) : List JsonSchema := s.sub.anyOf

def JsonSchema.oneOf (s : JsonSchema) : List JsonSchema := s.sub.oneOf

def JsonSchema.thenSchema (s : JsonSchema) : Option JsonSchema := s.sub.thenSchema

def JsonSchema.elseSchema (s : JsonSchema) : Option JsonSchema := s.sub.elseSchema

def JsonSchema.notSchema (s : JsonSchema) : Option JsonSchema := s.sub.not

def JsonSchema.types (s : JsonSchema) : List SchemaType := s.scalars.types

def JsonSchema.required (s : JsonSchema) : List String := s.scalars.required

def JsonSchema.doNotSuggest (s : JsonSchema) : Bool := s.scalars.doNotSuggest

def JsonSchema.deprecated (s : JsonSchema) : Bool := s.scalars.deprecated

def JsonSchema.description (s : JsonSchema) : Option String := s.scalars.description

def JsonSchema.markdownDescription (s : JsonSchema) : Option String :=
  s.scalars.markdownDescription

def JsonSchema.defaultSnippets (s : JsonSchema) : List DefaultSnippet :=
  s.scalars.defaultSnippets

/-! ### Size bookkeeping for the recursive definitions -/

theorem sizeOf_list_pos {α : Type} [SizeOf α] (l : List α) : 1 ≤ sizeOf l := by
  cases l with
  | nil => simp
  | cons x rest => simp only [List.cons.sizeOf_spec]; omega

theorem sizeOf_jget_le (m : List (String × JValue)) (k : String) :
    sizeOf (jget m k) ≤ sizeOf m := by
  cases h : jget m k with
  | none =>
    have := sizeOf_list_pos m
    simp only [Option.none.sizeOf_spec]
    omega
  | some v =>
    unfold jget at h
    cases hf : m.find? (fun kv => kv.1 == k) with
    | none => rw [hf] at h; simp at h
    | some kv =>
      rw [hf] at h
      simp at h
      subst h
      have hmem := List.mem_of_find?_eq_some hf
      have h1 : sizeOf kv < sizeOf m := List.sizeOf_lt_of_mem hmem
      cases kv with
      | mk k' v' =>
        simp only [Prod.mk.sizeOf_spec, Option.some.sizeOf_spec] at h1 ⊢
        omega

theorem jget_measure {m : List (String × JValue)} {k : String} (a b : Nat) (h : a < b) :
    4 * sizeOf (jget m k) + a < 4 * sizeOf m + b := by
  have := sizeOf_jget_le m k
  omega

theorem sizeOf_sub_lt (s : JsonSchema) : sizeOf s.sub < sizeOf s := by
  cases s with
  | mk sc r =>
    simp only [JsonSchema.sub, JsonSchema.mk.sizeOf_spec]
    omega

theorem sizeOf_allOf_lt (s : JsonSchema) : sizeOf s.allOf < sizeOf s := by
  cases s with
  | mk sc r =>
    cases r
    simp only [JsonSchema.allOf, JsonSchema.sub, JsonSchema.mk.sizeOf_spec,
      SchemaRec.mk.sizeOf_spec]
    omega

theorem sizeOf_anyOf_lt (s : JsonSchema) : sizeOf s.anyOf < sizeOf s := by
  cases s with
  | mk sc r =>
    cases r
    simp only [JsonSchema.anyOf, JsonSchema.sub, JsonSchema.mk.sizeOf_spec,
      SchemaRec.mk.sizeOf_spec]
    omega

theorem sizeOf_oneOf_lt (s : JsonSchema) : sizeOf s.oneOf < sizeOf s := by
  cases s with
  | mk sc r =>
    cases r
    simp only [JsonSchema.oneOf, JsonSchema.sub, JsonSchema.mk.sizeOf_spec,
      SchemaRec.mk.sizeOf_spec]
    omega

theorem sizeOf_thenSchema_lt (s : JsonSchema) : sizeOf s.thenSchema < sizeOf s := by
  cases s with
  | mk sc r =>
    cases r
    simp only [JsonSchema.thenSchema, JsonSchema.sub, JsonSchema.mk.sizeOf_spec,
      SchemaRec.mk.sizeOf_spec]
    omega

theorem sizeOf_elseSchema_lt (s : JsonSchema) : sizeOf s.elseSchema < sizeOf s := by
  cases s with
  | mk sc r =>
    cases r
    simp only [JsonSchema.elseSchema, JsonSchema.sub, JsonSchema.mk.sizeOf_spec,
      SchemaRec.mk.sizeOf_spec]
    omega

theorem sizeOf_composition_le (s : JsonSchema) :
    sizeOf s.allOf + sizeOf s.anyOf + sizeOf s.oneOf ≤ sizeOf s := by
  cases s with
  | mk sc r =>
    cases r
    simp only [JsonSchema.allOf, JsonSchema.anyOf, JsonSchema.oneOf, JsonSchema.sub,
      JsonSchema.mk.sizeOf_spec, SchemaRec.mk.sizeOf_spec]
    omega

theorem sizeOf_list_append {α : Type} [SizeOf α] (l1 l2 : List α) :
    sizeOf (l1 ++ l2) + 1 = sizeOf l1 + sizeOf l2 := by
  induction l1 with
  | nil => simp only [List.nil_append, List.nil.sizeOf_spec]; omega
  | cons x rest ih =>
    simp only [List.cons_append, List.cons.sizeOf_spec] at ih ⊢
    omega

/-! ### Parsing (`JsonSchema::from_value`, `parse_schema_object`)

The Rust helpers `str_field`/`str_array_field`/... take the map and a key;
here they take the already-fetched `map.get(key)` value so that every access
in `parseSchemaObject` is a syntactic `jget m key` (the composition is
unchanged). -/

/-- `str_field`: `map.get(key).and_then(|v| v.as_str())`. -/
def strField (v : Option JValue) : Option String := v.bind JValue.asStr

/-- `str_array_field`: array of strings, non-strings skipped, default `[]`. -/
def strArrayField (v : Option JValue) : List String :=
  match v.bind JValue.asArray with
  | some arr => arr.filterMap JValue.asStr
  | none => []

/-- The `type` keyword: one name, or an array of names (unknown names
skipped). -/
def parseTypes (v : Option JValue) : List SchemaType :=
  match v with
  | some (.str t) =>
    match parseSchemaType t with
    | some st => [st]
    | none => []
  | some (.arr arr) => arr.filterMap (fun x => x.asStr.bind parseSchemaType)
  | _ => []

/-- `exclusiveMinimum`/`exclusiveMaximum`: draft-4 boolean, else number
(defaulting to 0.0 as in the source). -/
def parseExclusiveLimit (v : Option JValue) : Option ExclusiveLimit :=
  v.map (fun x =>
    match x.asBool with
    | some b => .bool b
    | none => .num ((x.asF64).getD 0))

/-- `dependentRequired`: object entries whose value is an array. -/
def parseDependentRequired (v : Option JValue) : List (String × List String) :=
  match v.bind JValue.asObject with
  | some obj => obj.filterMap (fun kv =>
      (kv.2.asArray).map (fun arr => (kv.1, arr.filterMap JValue.asStr)))
  | none => []

/-- `defaultSnippets`: array entries that are objects. -/
def parseDefaultSnippets (v : Option JValue) : List DefaultSnippet :=
  match v.bind JValue.asArray with
  | some arr => (arr.filterMap JValue.asObject).map (fun obj =>
      { label := strField (jget obj "label")
        description := strField (jget obj "description")
        body := jget obj "body" })
  | none => []

set_option maxHeartbeats 2000000 in
mutual

/-- `JsonSchema::from_value`: `true` → accept-all default; `false` →
`not: {}`; object → field-by-field parse; anything else → default. -/
def JsonSchema.fromValue : JValue → JsonSchema
  | .bool true => JsonSchema.defaultSchema
  | .bool false => JsonSchema.mk {} { not := some JsonSchema.defaultSchema }
  | .obj m => parseSchemaObject m
  | _ => JsonSchema.defaultSchema
termination_by v => 4 * sizeOf v
decreasing_by
  all_goals simp
  all_goals omega

/-- `parse_schema_object`, field by field as in the source. -/
def parseSchemaObject (m : List (String × JValue)) : JsonSchema :=
  JsonSchema.mk
    { draft :=
        match strField (jget m "$schema") with
        | some v => SchemaDraft.fromSchemaUri v
        | none => .draft7
      schemaDraft := strField (jget m "$schema")
      id := (strField (jget m "$id")).orElse (fun _ => strField (jget m "id"))
      title := strField (jget m "title")
      description := strField (jget m "description")
      markdownDescription := strField (jget m "markdownDescription")
      default := jget m "default"
      examples := ((jget m "examples").bind JValue.asArray).getD []
      deprecated := (((jget m "deprecated").bind JValue.asBool)).getD false
      deprecationMessage := strField (jget m "deprecationMessage")
      errorMessage := strField (jget m "errorMessage")
      patternErrorMessage := strField (jget m "patternErrorMessage")
      doNotSuggest := (((jget m "doNotSuggest").bind JValue.asBool)).getD false
      enumDescriptions := strArrayField (jget m "enumDescriptions")
      markdownEnumDescriptions := strArrayField (jget m "markdownEnumDescriptions")
      types := parseTypes (jget m "type")
      enumValues := ((jget m "enum").bind JValue.asArray).getD []
      constValue := jget m "const"
      minimum := (jget m "minimum").bind JValue.asF64
      maximum := (jget m "maximum").bind JValue.asF64
      exclusiveMinimum := parseExclusiveLimit (jget m "exclusiveMinimum")
      exclusiveMaximum := parseExclusiveLimit (jget m "exclusiveMaximum")
      multipleOf := (jget m "multipleOf").bind JValue.asF64
      minLength := (jget m "minLength").bind JValue.asU64
      maxLength := (jget m "maxLength").bind JValue.asU64
      pattern := strField (jget m "pattern")
      format := strField (jget m "format")
      minItems := (jget m "minItems").bind JValue.asU64
      maxItems := (jget m "maxItems").bind JValue.asU64
      uniqueItems := (((jget m "uniqueItems").bind JValue.asBool)).getD false
      minContains := (jget m "minContains").bind JValue.asU64
      maxContains := (jget m "maxContains").bind JValue.asU64
      required := strArrayField (jget m "required")
      minProperties := (jget m "minProperties").bind JValue.asU64
      maxProperties := (jget m "maxProperties").bind JValue.asU64
      dependentRequired := parseDependentRequired (jget m "dependentRequired")
      reference := strField (jget m "$ref")
      defaultSnippets := parseDefaultSnippets (jget m "defaultSnippets") }
    { items := parseOptSchemaOrBool (jget m "items")
      prefixItems := parseSchemaListOpt (jget m "prefixItems")
      additionalItems := parseOptSchemaOrBool (jget m "additionalItems")
      contains := parseOptSchema (jget m "contains")
      properties := parseSchemaMapOpt (jget m "properties")
      additionalProperties := parseOptSchemaOrBool (jget m "additionalProperties")
      patternProperties := parseSchemaMapOpt (jget m "patternProperties")
      propertyNames := parseOptSchema (jget m "propertyNames")
      dependencies := parseDependenciesOpt (jget m "dependencies")
      dependentSchemas := parseSchemaMapOpt (jget m "dependentSchemas")
      allOf := parseSchemaListOpt (jget m "allOf")
      anyOf := parseSchemaListOpt (jget m "anyOf")
      oneOf := parseSchemaListOpt (jget m "oneOf")
      not := parseOptSchema (jget m "not")
      ifSchema := parseOptSchema (jget m "if")
      thenSchema := parseOptSchema (jget m "then")
      elseSchema := parseOptSchema (jget m "else")
      definitions := parseSchemaMapOpt (jget m "definitions")
      defs := parseSchemaMapOpt (jget m "$defs") }
termination_by 4 * sizeOf m + 3
decreasing_by
  all_goals exact jget_measure _ _ (by omega)

/-- `map.get(k).map(JsonSchema::from_value)`. -/
def parseOptSchema : Option JValue → Option JsonSchema
  | some v => some (JsonSchema.fromValue v)
  | none => none
termination_by ov => 4 * sizeOf ov + 1
decreasing_by
  all_goals simp
  all_goals omega

/-- `parse_schema_or_bool`. -/
def parseSchemaOrBool : JValue → SchemaOrBool JsonSchema
  | .bool b => .bool b
  | v => .schema (JsonSchema.fromValue v)
termination_by v => 4 * sizeOf v + 1
decreasing_by
  all_goals omega

/-- `map.get(k).map(|v| Box::new(parse_schema_or_bool(v)))`. -/
def parseOptSchemaOrBool : Option JValue → Option (SchemaOrBool JsonSchema)
  | some v => some (parseSchemaOrBool v)
  | none => none
termination_by ov => 4 * sizeOf ov + 2
decreasing_by
  all_goals simp
  all_goals omega

/-- `schema_array_field`: array entries parsed as schemas, default `[]`. -/
def parseSchemaListOpt : Option JValue → List JsonSchema
  | some (.arr xs) => parseSchemaList xs
  | _ => []
termination_by ov => 4 * sizeOf ov + 1
decreasing_by
  all_goals simp
  all_goals omega

def parseSchemaList : List JValue → List JsonSchema
  | [] => []
  | v :: rest => JsonSchema.fromValue v :: parseSchemaList rest
termination_by l => 4 * sizeOf l
decreasing_by
  all_goals simp
  all_goals omega

/-- `schema_object_field` (and the `properties`-style parsers): object
entries parsed as schemas, default `[]`. -/
def parseSchemaMapOpt : Option JValue → List (String × JsonSchema)
  | some (.obj props) => parseSchemaMap props
  | _ => []
termination_by ov => 4 * sizeOf ov + 1
decreasing_by
  all_goals simp
  all_goals omega

def parseSchemaMap : List (String × JValue) → List (String × JsonSchema)
  | [] => []
  | (k, v) :: rest => (k, JsonSchema.fromValue v) :: parseSchemaMap rest
termination_by l => 4 * sizeOf l
decreasing_by
  all_goals simp
  all_goals omega

/-- One `dependencies` entry: an array means required names, anything else a
sub-schema. -/
def parseDependency : JValue → SchemaDependency JsonSchema
  | .arr xs => .properties (xs.filterMap JValue.asStr)
  | v => .schema (JsonSchema.fromValue v)
termination_by v => 4 * sizeOf v + 1
decreasing_by
  all_goals omega

def parseDependencyMap : List (String × JValue) → List (String × SchemaDependency JsonSchema)
  | [] => []
  | (k, dep) :: rest => (k, parseDependency dep) :: parseDependencyMap rest
termination_by l => 4 * sizeOf l
decreasing_by
  all_goals simp
  all_goals omega

def parseDependenciesOpt : Option JValue → List (String × SchemaDependency JsonSchema)
  | some (.obj deps) => parseDependencyMap deps
  | _ => []
termination_by ov => 4 * sizeOf ov + 1
decreasing_by
  all_goals simp
  all_goals omega

end

/-! ## Path resolution (`JsonSchema::resolve_path_segment`) -/

/-- `HashMap::get` over the association-list rendering of a map. -/
def lookupStr {α : Type} (m : List (String × α)) (k : String) : Option α :=
  (m.find? (fun kv => kv.1 == k)).map (fun kv => kv.2)

def parseUsizeDigits (ds : List Char) : Option Nat :=
  if ds ≠ [] ∧ ds.all (fun c => c.isDigit) then
    if ds.foldl (fun a c => a * 10 + (c.toNat - 48)) 0 < 2 ^ 64 then
      some (ds.foldl (fun a c => a * 10 + (c.toNat - 48)) 0)
    else none
  else none

/-- `str::parse::<usize>`: optional leading `+`, then one or more ASCII
digits; values above `usize::MAX` (2^64 - 1 on the 64-bit targets this
server builds for) are a parse error. -/
def parseUsize (seg : String) : Option Nat :=
  match seg.toList with
  | '+' :: ds => parseUsizeDigits ds
  | ds => parseUsizeDigits ds

/-- The array-index step of `resolve_path_segment`: `prefixItems[idx]`,
else `items` when it is a schema.  (Not recursive, hence defined outside
the mutual block.) -/
def resolveIndex (s : JsonSchema) (seg : String) : Option JsonSchema :=
  match parseUsize seg with
  | some idx =>
    match s.prefixItems[idx]? with
    | some ps => some ps
    | none =>
      match s.items with
      | some (.schema it) => some it
      | _ => none
  | none => none

mutual

/-- `JsonSchema::resolve_path_segment` (schema/types.rs).  The Rust loop
over `all_of.iter().chain(any_of).chain(one_of)` is rendered as three
first-hit scans in the same order. -/
def resolvePathSegment (s : JsonSchema) (seg : String) : Option JsonSchema :=
  match lookupStr s.properties seg with
  | some prop => some prop
  | none =>
  match resolveIndex s seg with
  | some r => some r
  | none =>
  match resolveFirst s.allOf seg with
  | some r => some r
  | none =>
  match resolveFirst s.anyOf seg with
  | some r => some r
  | none =>
  match resolveFirst s.oneOf seg with
  | some r => some r
  | none =>
  match resolveOpt s.thenSchema seg with
  | some r => some r
  | none =>
  match resolveOpt s.elseSchema seg with
  | some r => some r
  | none =>
  match s.additionalProperties with
  | some (.schema ap) => some ap
  | _ => none
termination_by 4 * sizeOf s + 2
decreasing_by
  · have := sizeOf_allOf_lt s; omega
  · have := sizeOf_anyOf_lt s; omega
  · have := sizeOf_oneOf_lt s; omega
  · have := sizeOf_thenSchema_lt s; omega
  · have := sizeOf_elseSchema_lt s; omega

/-- First hit of `resolve_path_segment` over a list of sub-schemas. -/
def resolveFirst : List JsonSchema → String → Option JsonSchema
  | [], _ => none
  | x :: rest, seg =>
    match resolvePathSegment x seg with
    | some r => some r
    | none => resolveFirst rest seg
termination_by l _ => 4 * sizeOf l
decreasing_by
  all_goals simp
  all_goals omega

/-- `resolve_path_segment` through an optional sub-schema (`then`/`else`). -/
def resolveOpt : Option JsonSchema → String → Option JsonSchema
  | some t, seg => resolvePathSegment t seg
  | none, _ => none
termination_by o _ => 4 * sizeOf o
decreasing_by
  all_goals simp
  all_goals omega

end

/-! ### The resolution order, as the spec words it -/

def firstSome {α : Type} : List (Option α) → Option α
  | [] => none
  | some x :: _ => some x
  | none :: rest => firstSome rest

mutual

/-- Modelled from the spec's numbered algorithm (§4.2, Path resolution):
return the first hit among, in order: (1) `properties[seg]`; (2) for an
integer segment, `prefixItems[i]`, else `items` when it is a schema;
(3) recursion into the elements of `allOf`, then `anyOf`, then `oneOf`;
(4) recursion into `then` and `else`; (5) `additionalProperties` when it
is a schema; (6) none. -/
def specResolvePathSegment (s : JsonSchema) (seg : String) : Option JsonSchema :=
  firstSome
    [ lookupStr s.properties seg,
      (parseUsize seg).bind (fun i =>
        match s.prefixItems[i]? with
        | some ps => some ps
        | none => s.items.bind SchemaOrBool.asSchema),
      specResolveFirst (s.allOf ++ s.anyOf ++ s.oneOf) seg,
      specResolveOpt s.thenSchema seg,
      specResolveOpt s.elseSchema seg,
      s.additionalProperties.bind SchemaOrBool.asSchema ]
termination_by 4 * sizeOf s + 3
decreasing_by
  · have h1 := sizeOf_composition_le s
    have h2 := sizeOf_list_append s.allOf s.anyOf
    have h3 := sizeOf_list_append (s.allOf ++ s.anyOf) s.oneOf
    omega
  · have := sizeOf_thenSchema_lt s; omega
  · have := sizeOf_elseSchema_lt s; omega

def specResolveFirst : List JsonSchema → String → Option JsonSchema
  | [], _ => none
  | x :: rest, seg =>
    match specResolvePathSegment x seg with
    | some r => some r
    | none => specResolveFirst rest seg
termination_by l _ => 4 * sizeOf l
decreasing_by
  all_goals simp
  all_goals omega

def specResolveOpt : Option JsonSchema → String → Option JsonSchema
  | some t, seg => specResolvePathSegment t seg
  | none, _ => none
termination_by o _ => 4 * sizeOf o + 1
decreasing_by
  all_goals simp
  all_goals omega

end

theorem sobOpt_match_eq_bind (o : Option (SchemaOrBool JsonSchema)) :
    (match o with
      | some (.schema x) => some x
      | _ => none)
      = o.bind SchemaOrBool.asSchema := by
  cases o with
  | none => rfl
  | some sob => cases sob <;> rfl

theorem resolveIndex_eq_bind (s : JsonSchema) (seg : String) :
    resolveIndex s seg
      = (parseUsize seg).bind (fun i =>
          match s.prefixItems[i]? with
          | some ps => some ps
          | none => s.items.bind SchemaOrBool.asSchema) := by
  cases hp : parseUsize seg with
  | none => simp [resolveIndex, hp]
  | some idx =>
    simp only [resolveIndex, hp, Option.some_bind]
    cases s.prefixItems[idx]? with
    | some ps => rfl
    | none => exact sobOpt_match_eq_bind s.items

theorem specResolveFirst_append (l1 l2 : List JsonSchema) (seg : String) :
    specResolveFirst (l1 ++ l2) seg
      = match specResolveFirst l1 seg with
        | some r => some r
        | none => specResolveFirst l2 seg := by
  induction l1 with
  | nil => rw [List.nil_append, specResolveFirst]
  | cons x rest ih =>
    rw [List.cons_append, specResolveFirst, specResolveFirst]
    cases specResolvePathSegment x seg with
    | some r => rfl
    | none => rw [ih]

mutual

/-- The implementation matches the spec's resolution order, one segment at
a time. -/
theorem resolvePathSegment_eq_spec (s : JsonSchema) (seg : String) :
    resolvePathSegment s seg = specResolvePathSegment s seg := by
  rw [resolvePathSegment, specResolvePathSegment]
  rw [show (specResolveFirst (s.allOf ++ s.anyOf ++ s.oneOf) seg)
      = (match specResolveFirst (s.allOf ++ s.anyOf) seg with
         | some r => some r
         | none => specResolveFirst s.oneOf seg) from
    specResolveFirst_append (s.allOf ++ s.anyOf) s.oneOf seg]
  rw [specResolveFirst_append s.allOf s.anyOf seg]
  rw [← resolveIndex_eq_bind s seg]
  rw [← resolveFirst_eq_spec s.allOf seg, ← resolveFirst_eq_spec s.anyOf seg,
      ← resolveFirst_eq_spec s.oneOf seg,
      ← resolveOpt_eq_spec s.thenSchema seg, ← resolveOpt_eq_spec s.elseSchema seg]
  rw [← sobOpt_match_eq_bind s.additionalProperties]
  cases lookupStr s.properties seg with
  | some prop => rfl
  | none =>
  cases resolveIndex s seg with
  | some r => rfl
  | none =>
  cases resolveFirst s.allOf seg with
  | some r => rfl
  | none =>
  cases resolveFirst s.anyOf seg with
  | some r => rfl
  | none =>
  cases resolveFirst s.oneOf seg with
  | some r => rfl
  | none =>
  cases resolveOpt s.thenSchema seg with
  | some r => rfl
  | none =>
  cases resolveOpt s.elseSchema seg with
  | some r => rfl
  | none =>
  cases s.additionalProperties with
  | none => rfl
  | some sob => cases sob <;> rfl
termination_by 4 * sizeOf s + 2
decreasing_by
  · have := sizeOf_allOf_lt s; omega
  · have := sizeOf_anyOf_lt s; omega
  · have := sizeOf_oneOf_lt s; omega
  · have := sizeOf_thenSchema_lt s; omega
  · have := sizeOf_elseSchema_lt s; omega

theorem resolveFirst_eq_spec (l : List JsonSchema) (seg : String) :
    resolveFirst l seg = specResolveFirst l seg := by
  cases l with
  | nil => rw [resolveFirst, specResolveFirst]
  | cons x rest =>
    rw [resolveFirst, specResolveFirst, resolvePathSegment_eq_spec x seg,
      resolveFirst_eq_spec rest seg]
termination_by 4 * sizeOf l
decreasing_by
  all_goals simp
  all_goals omega

theorem resolveOpt_eq_spec (o : Option JsonSchema) (seg : String) :
    resolveOpt o seg = specResolveOpt o seg := by
  cases o with
  | none => rw [resolveOpt, specResolveOpt]
  | some t => rw [resolveOpt, specResolveOpt, resolvePathSegment_eq_spec t seg]
termination_by 4 * sizeOf o
decreasing_by
  all_goals simp
  all_goals omega

end

/-! ### C4: the resolution order and its concrete instance -/

/-- The sub-schema `{"type": "number"}` of the C4 example. -/
def exC4B : JsonSchema := .mk { types := [.number] } {}

/-- The sub-schema `{"properties": {"b": {"type": "number"}}}`. -/
def exC4A : JsonSchema := .mk {} { properties := [("b", exC4B)] }

/-- The root schema `{"properties": {"a": {"properties": {"b": ...}}}}`. -/
def exC4Root : JsonSchema := .mk {} { properties := [("a", exC4A)] }

/-- **C4.** `resolve_path_segment` tries, in exactly the spec's order:
properties; integer index into `prefixItems` else `items`; recursion into
`allOf`, `anyOf`, `oneOf`; recursion into `then` and `else`;
`additionalProperties`; else none — and on the example schema, resolving
`"a"` then `"b"` reaches the sub-schema whose type set is exactly
`{number}`. -/
theorem claim_C4_resolve_path_order :
    (∀ (s : JsonSchema) (seg : String),
        resolvePathSegment s seg = specResolvePathSegment s seg) ∧
      resolvePathSegment exC4Root "a" = some exC4A ∧
      resolvePathSegment exC4A "b" = some exC4B ∧
      exC4B.types = [SchemaType.number] := by
  refine ⟨resolvePathSegment_eq_spec, ?_, ?_, rfl⟩
  · rw [resolvePathSegment]
    simp [exC4Root, lookupStr, List.find?, JsonSchema.properties, JsonSchema.sub]
  · rw [resolvePathSegment]
    simp [exC4A, lookupStr, List.find?, JsonSchema.properties, JsonSchema.sub]

/-! ### C6: `from_value` case behaviour and unknown-field insensitivity -/

/-- Exactly the keys `parse_schema_object` reads from the map. -/
def knownSchemaKeys : List String :=
  ["$schema", "$id", "id", "title", "description", "markdownDescription", "default",
   "examples", "deprecated", "deprecationMessage", "errorMessage", "patternErrorMessage",
   "doNotSuggest", "enumDescriptions", "markdownEnumDescriptions", "type", "enum", "const",
   "minimum", "maximum", "exclusiveMinimum", "exclusiveMaximum", "multipleOf", "minLength",
   "maxLength", "pattern", "format", "items", "prefixItems", "additionalItems", "minItems",
   "maxItems", "uniqueItems", "contains", "minContains", "maxContains", "properties",
   "required", "additionalProperties", "patternProperties", "propertyNames",
   "minProperties", "maxProperties", "dependencies", "dependentRequired",
   "dependentSchemas", "allOf", "anyOf", "oneOf", "not", "if", "then", "else", "$ref",
   "definitions", "$defs", "defaultSnippets"]

/-- Drop the fields `parse_schema_object` never reads. -/
def filterUnknownKeys (m : List (String × JValue)) : List (String × JValue) :=
  m.filter (fun kv => knownSchemaKeys.contains kv.1)

theorem jget_cons (k0 : String) (v0 : JValue) (rest : List (String × JValue)) (k : String) :
    jget ((k0, v0) :: rest) k = if k0 == k then some v0 else jget rest k := by
  unfold jget
  by_cases hk : k0 == k
  · simp [List.find?, hk]
  · simp only [List.find?]
    simp [hk]

/-- Two maps that agree on every key the parser reads parse identically. -/
theorem parseSchemaObject_congr (m m' : List (String × JValue))
    (h : ∀ k ∈ knownSchemaKeys, jget m k = jget m' k) :
    parseSchemaObject m = parseSchemaObject m' := by
  rw [parseSchemaObject, parseSchemaObject]
  rw [h "$schema" (by decide), h "$id" (by decide), h "id" (by decide),
    h "title" (by decide), h "description" (by decide),
    h "markdownDescription" (by decide), h "default" (by decide),
    h "examples" (by decide), h "deprecated" (by decide),
    h "deprecationMessage" (by decide), h "errorMessage" (by decide),
    h "patternErrorMessage" (by decide), h "doNotSuggest" (by decide),
    h "enumDescriptions" (by decide), h "markdownEnumDescriptions" (by decide),
    h "type" (by decide), h "enum" (by decide), h "const" (by decide),
    h "minimum" (by decide), h "maximum" (by decide),
    h "exclusiveMinimum" (by decide), h "exclusiveMaximum" (by decide),
    h "multipleOf" (by decide), h "minLength" (by decide), h "maxLength" (by decide),
    h "pattern" (by decide), h "format" (by decide), h "minItems" (by decide),
    h "maxItems" (by decide), h "uniqueItems" (by decide), h "minContains" (by decide),
    h "maxContains" (by decide), h "required" (by decide),
    h "minProperties" (by decide), h "maxProperties" (by decide),
    h "dependentRequired" (by decide), h "$ref" (by decide),
    h "defaultSnippets" (by decide), h "items" (by decide),
    h "prefixItems" (by decide), h "additionalItems" (by decide),
    h "contains" (by decide), h "properties" (by decide),
    h "additionalProperties" (by decide), h "patternProperties" (by decide),
    h "propertyNames" (by decide), h "dependencies" (by decide),
    h "dependentSchemas" (by decide), h "allOf" (by decide), h "anyOf" (by decide),
    h "oneOf" (by decide), h "not" (by decide), h "if" (by decide),
    h "then" (by decide), h "else" (by decide), h "definitions" (by decide),
    h "$defs" (by decide)]

theorem jget_filterUnknownKeys (m : List (String × JValue)) (k : String)
    (h : knownSchemaKeys.contains k = true) :
    jget (filterUnknownKeys m) k = jget m k := by
  induction m with
  | nil => rfl
  | cons kv rest ih =>
    obtain ⟨k0, v0⟩ := kv
    by_cases hc : knownSchemaKeys.contains k0
    · have hcm : k0 ∈ knownSchemaKeys := by simpa using hc
      rw [show filterUnknownKeys ((k0, v0) :: rest) = (k0, v0) :: filterUnknownKeys rest by
        simp [filterUnknownKeys, List.filter_cons, hcm]]
      rw [jget_cons, jget_cons, ih]
    · have hcm : k0 ∉ knownSchemaKeys := by simpa using hc
      rw [show filterUnknownKeys ((k0, v0) :: rest) = filterUnknownKeys rest by
        simp [filterUnknownKeys, List.filter_cons, hcm]]
      have hne : (k0 == k) = false := by
        cases hbeq : (k0 == k)
        · rfl
        · exfalso
          have : k0 = k := by simpa using hbeq
          rw [this] at hc
          exact hc h
      rw [jget_cons, if_neg (by simp [hne]), ih]

/-- **C6.** `JsonSchema::from_value` is total on JSON values and:
`true` parses to the accept-all default schema (whose `not` is absent);
`false` parses to an otherwise-empty schema with `not: {}`; an object
parses field by field with unknown fields ignored (same result as with
unknown fields removed); every other value parses to the default schema. -/
theorem claim_C6_fromValue_cases :
    JsonSchema.fromValue (.bool true) = JsonSchema.defaultSchema ∧
    JsonSchema.defaultSchema.notSchema = none ∧
    JsonSchema.fromValue (.bool false)
      = JsonSchema.mk {} { not := some JsonSchema.defaultSchema } ∧
    JsonSchema.fromValue .null = JsonSchema.defaultSchema ∧
    (∀ n, JsonSchema.fromValue (.num n) = JsonSchema.defaultSchema) ∧
    (∀ st, JsonSchema.fromValue (.str st) = JsonSchema.defaultSchema) ∧
    (∀ xs, JsonSchema.fromValue (.arr xs) = JsonSchema.defaultSchema) ∧
    (∀ m, JsonSchema.fromValue (.obj m)
        = JsonSchema.fromValue (.obj (filterUnknownKeys m))) := by
  refine ⟨?_, rfl, ?_, ?_, ?_, ?_, ?_, ?_⟩
  · rw [JsonSchema.fromValue]
  · rw [JsonSchema.fromValue]
  · rw [JsonSchema.fromValue] <;> simp
  · intro n; rw [JsonSchema.fromValue] <;> simp
  · intro st; rw [JsonSchema.fromValue] <;> simp
  · intro xs; rw [JsonSchema.fromValue] <;> simp
  · intro m
    rw [JsonSchema.fromValue, JsonSchema.fromValue]
    exact parseSchemaObject_congr m (filterUnknownKeys m)
      (fun k hk => (jget_filterUnknownKeys m k (by simpa using hk)).symm)

/-! ## Property-name completion (`complete_property_names`, completion.rs)

`CompletionItem` keeps the fields the claims are about (label, kind,
detail, documentation, sort text, deprecation).  The `insert_text` /
`insert_text_format` fields (snippet bodies rendered through serde's JSON
printer) and the `tags` duplicate of `deprecated` are outside the scope of
the embedded claims and are omitted. -/

inductive CompletionItemKind where
  | property
  | value
  | enumMember
  | snippet
  | structKind
  deriving DecidableEq

structure CompletionItem where
  label : String
  kind : CompletionItemKind
  detail : Option String := none
  documentation : Option String := none
  sortText : Option String := none
  deprecated : Option Bool := none
  deriving DecidableEq

/-- The sort key `format!("0_{key}")` / `format!("1_{key}")`: required
properties sort before the rest. -/
def propertySortText (isRequired : Bool) (key : String) : String :=
  if isRequired then "0_" ++ key else "1_" ++ key

/-- The `for (key, prop_schema) in &schema.properties` loop: skip existing
keys and `doNotSuggest` schemas, else emit a property item. -/
def propertyItems (existing : List String) (required : List String) :
    List (String × JsonSchema) → List CompletionItem
  | [] => []
  | (key, ps) :: rest =>
    if existing.contains key || ps.doNotSuggest then
      propertyItems existing required rest
    else
      { label := key
        kind := .property
        detail := (ps.types.head?).map SchemaType.asStr
        documentation := (ps.markdownDescription).orElse (fun _ => ps.description)
        sortText := some (propertySortText (required.contains key) key)
        deprecated := if ps.deprecated then some true else none }
        :: propertyItems existing required rest

/-- `defaultSnippets` entries with a body become snippet items. -/
def snippetItems : List DefaultSnippet → List CompletionItem
  | [] => []
  | snip :: rest =>
    match snip.body with
    | some _ =>
      { label := snip.label.getD "snippet"
        kind := .snippet
        detail := snip.description } :: snippetItems rest
    | none => snippetItems rest

mutual

/-- `complete_property_names` (completion.rs): direct properties, then the
`allOf`/`anyOf`/`oneOf` recursion, the `then`/`else` recursion, and the
schema's default snippets, in emission order.  `existing` is the set of keys
already present in the object at the cursor. -/
def completePropertyNames (existing : List String) (schema : JsonSchema) :
    List CompletionItem :=
  propertyItems existing schema.required schema.properties
    ++ completeList existing schema.allOf
    ++ completeList existing schema.anyOf
    ++ completeList existing schema.oneOf
    ++ completeOpt existing schema.thenSchema
    ++ completeOpt existing schema.elseSchema
    ++ snippetItems schema.defaultSnippets
termination_by 4 * sizeOf schema + 2
decreasing_by
  · have := sizeOf_allOf_lt schema; omega
  · have := sizeOf_anyOf_lt schema; omega
  · have := sizeOf_oneOf_lt schema; omega
  · have := sizeOf_thenSchema_lt schema; omega
  · have := sizeOf_elseSchema_lt schema; omega

def completeList (existing : List String) : List JsonSchema → List CompletionItem
  | [] => []
  | s :: rest => completePropertyNames existing s ++ completeList existing rest
termination_by l => 4 * sizeOf l
decreasing_by
  all_goals simp
  all_goals omega

/-- The `then`/`else` recursion of `complete_property_names`. -/
def completeOpt (existing : List String) : Option JsonSchema → List CompletionItem
  | some t => completePropertyNames existing t
  | none => []
termination_by o => 4 * sizeOf o
decreasing_by
  all_goals simp
  all_goals omega

end

/-! ### C8: required properties sort first -/

/-- Required properties receive a sort key that orders strictly before every
non-required sort key (`"0_…" < "1_…"` in the client's sort-text order). -/
theorem propertySortText_required_first (k k' : String) :
    propertySortText true k < propertySortText false k' := by
  show (if true then "0_" ++ k else "1_" ++ k)
      < (if false then "0_" ++ k' else "1_" ++ k')
  rw [if_pos rfl, if_neg (by simp)]
  rw [String.lt_iff_toList_lt]
  have h1 : ("0_" ++ k).toList = '0' :: '_' :: k.toList := by
    show ("0_" ++ k).data = '0' :: '_' :: k.data
    rw [String.data_append]
    rfl
  have h2 : ("1_" ++ k').toList = '1' :: '_' :: k'.toList := by
    show ("1_" ++ k').data = '1' :: '_' :: k'.data
    rw [String.data_append]
    rfl
  rw [h1, h2]
  exact List.Lex.rel (by decide)

/-- The C8 example: `{"properties": {"name": {"type": "string"},
"age": {"type": "integer"}}, "required": ["name"]}`. -/
def exC8Name : JsonSchema := .mk { types := [.string] } {}

def exC8Age : JsonSchema := .mk { types := [.integer] } {}

def exC8Schema : JsonSchema :=
  .mk { required := ["name"] } { properties := [("name", exC8Name), ("age", exC8Age)] }

def exC8NameItem : CompletionItem :=
  { label := "name"
    kind := .property
    detail := some "string"
    sortText := some (propertySortText true "name") }

def exC8AgeItem : CompletionItem :=
  { label := "age"
    kind := .property
    detail := some "integer"
    sortText := some (propertySortText false "age") }

/-- **C8.** For property-name completion in an object whose resolved schema
has properties `name` and `age` with `name` required (and neither key
already present), the items include one labeled `name` and one labeled
`age`, and `name`'s sort key orders strictly before `age`'s: required
properties sort before non-required ones. -/
theorem claim_C8_required_sorts_first (existing : List String)
    (hn : existing.contains "name" = false) (ha : existing.contains "age" = false) :
    completePropertyNames existing exC8Schema = [exC8NameItem, exC8AgeItem] ∧
      exC8NameItem.sortText = some (propertySortText true "name") ∧
      exC8AgeItem.sortText = some (propertySortText false "age") ∧
      propertySortText true "name" < propertySortText false "age" ∧
      (∀ k k', propertySortText true k < propertySortText false k') := by
  refine ⟨?_, rfl, rfl, propertySortText_required_first "name" "age",
    propertySortText_required_first⟩
  have hn' : "name" ∉ existing := by simpa using hn
  have ha' : "age" ∉ existing := by simpa using ha
  rw [completePropertyNames]
  simp [propertyItems, completeList, completeOpt, snippetItems, hn', ha',
    exC8Schema, exC8Name, exC8Age, exC8NameItem, exC8AgeItem,
    JsonSchema.properties, JsonSchema.required, JsonSchema.allOf, JsonSchema.anyOf,
    JsonSchema.oneOf, JsonSchema.thenSchema, JsonSchema.elseSchema,
    JsonSchema.defaultSnippets, JsonSchema.doNotSuggest, JsonSchema.types,
    JsonSchema.deprecated, JsonSchema.markdownDescription, JsonSchema.description,
    JsonSchema.scalars, JsonSchema.sub, SchemaType.asStr]

/-- Witness for C8 at the S6 scenario: the object already contains the
partial key `"na"`. -/
theorem claim_C8_witness :
    completePropertyNames ["na"] exC8Schema = [exC8NameItem, exC8AgeItem] ∧
      propertySortText true "name" < propertySortText false "age" :=
  ⟨(claim_C8_required_sorts_first ["na"] (by decide) (by decide)).1,
    (claim_C8_required_sorts_first ["na"] (by decide) (by decide)).2.2.2.1⟩

/-! ### C10: completion never suggests present or suppressed properties -/

/-- A property `(key, ps)` offered by `complete_property_names` at any depth
of the `allOf`/`anyOf`/`oneOf`/`then`/`else` recursion. -/
inductive ReachableProperty : JsonSchema → String → JsonSchema → Prop where
  | direct {s : JsonSchema} {key : String} {ps : JsonSchema} :
      (key, ps) ∈ s.properties → ReachableProperty s key ps
  | viaAllOf {s sub : JsonSchema} {key : String} {ps : JsonSchema} :
      sub ∈ s.allOf → ReachableProperty sub key ps → ReachableProperty s key ps
  | viaAnyOf {s sub : JsonSchema} {key : String} {ps : JsonSchema} :
      sub ∈ s.anyOf → ReachableProperty sub key ps → ReachableProperty s key ps
  | viaOneOf {s sub : JsonSchema} {key : String} {ps : JsonSchema} :
      sub ∈ s.oneOf → ReachableProperty sub key ps → ReachableProperty s key ps
  | viaThen {s t : JsonSchema} {key : String} {ps : JsonSchema} :
      s.thenSchema = some t → ReachableProperty t key ps → ReachableProperty s key ps
  | viaElse {s e : JsonSchema} {key : String} {ps : JsonSchema} :
      s.elseSchema = some e → ReachableProperty e key ps → ReachableProperty s key ps

theorem propertyItems_sound {existing required : List String}
    {props : List (String × JsonSchema)} {it : CompletionItem}
    (h : it ∈ propertyItems existing required props) :
    it.kind = CompletionItemKind.property ∧ existing.contains it.label = false ∧
      ∃ ps, (it.label, ps) ∈ props ∧ ps.doNotSuggest = false := by
  induction props with
  | nil => simp [propertyItems] at h
  | cons kv rest ih =>
    obtain ⟨key, ps⟩ := kv
    rw [propertyItems] at h
    split at h
    · obtain ⟨h1, h2, ps', h3, h4⟩ := ih h
      exact ⟨h1, h2, ps', List.mem_cons_of_mem _ h3, h4⟩
    · rename_i hcond
      simp only [Bool.or_eq_true, not_or] at hcond
      rcases List.mem_cons.1 h with h1 | h1
      · subst h1
        refine ⟨rfl, ?_, ps, ?_, ?_⟩
        · simpa using hcond.1
        · exact List.mem_cons_self _ _
        · simpa using hcond.2
      · obtain ⟨h1, h2, ps', h3, h4⟩ := ih h1
        exact ⟨h1, h2, ps', List.mem_cons_of_mem _ h3, h4⟩

theorem snippetItems_kind {l : List DefaultSnippet} {it : CompletionItem}
    (h : it ∈ snippetItems l) : it.kind = CompletionItemKind.snippet := by
  induction l with
  | nil => simp [snippetItems] at h
  | cons snip rest ih =>
    rw [snippetItems] at h
    split at h
    · rcases List.mem_cons.1 h with h1 | h1
      · subst h1; rfl
      · exact ih h1
    · exact ih h

mutual

theorem completePropertyNames_sound (existing : List String) (s : JsonSchema)
    (it : CompletionItem) (hmem : it ∈ completePropertyNames existing s)
    (hkind : it.kind = CompletionItemKind.property) :
    existing.contains it.label = false ∧
      ∃ ps, ReachableProperty s it.label ps ∧ ps.doNotSuggest = false := by
  rw [completePropertyNames] at hmem
  simp only [List.mem_append] at hmem
  rcases hmem with ((((((h | h) | h) | h) | h) | h) | h)
  · obtain ⟨_, h2, ps, h3, h4⟩ := propertyItems_sound h
    exact ⟨h2, ps, .direct h3, h4⟩
  · obtain ⟨h2, sub, hsub, ps, hre, h4⟩ := completeList_sound existing s.allOf it h hkind
    exact ⟨h2, ps, .viaAllOf hsub hre, h4⟩
  · obtain ⟨h2, sub, hsub, ps, hre, h4⟩ := completeList_sound existing s.anyOf it h hkind
    exact ⟨h2, ps, .viaAnyOf hsub hre, h4⟩
  · obtain ⟨h2, sub, hsub, ps, hre, h4⟩ := completeList_sound existing s.oneOf it h hkind
    exact ⟨h2, ps, .viaOneOf hsub hre, h4⟩
  · obtain ⟨h2, t, ht, ps, hre, h4⟩ := completeOpt_sound existing s.thenSchema it h hkind
    exact ⟨h2, ps, .viaThen ht hre, h4⟩
  · obtain ⟨h2, e, he, ps, hre, h4⟩ := completeOpt_sound existing s.elseSchema it h hkind
    exact ⟨h2, ps, .viaElse he hre, h4⟩
  · have := snippetItems_kind h
    rw [hkind] at this
    exact absurd this (by decide)
termination_by 4 * sizeOf s + 2
decreasing_by
  · have := sizeOf_allOf_lt s; omega
  · have := sizeOf_anyOf_lt s; omega
  · have := sizeOf_oneOf_lt s; omega
  · have := sizeOf_thenSchema_lt s; omega
  · have := sizeOf_elseSchema_lt s; omega

theorem completeList_sound : ∀ (existing : List String) (l : List JsonSchema)
    (it : CompletionItem), it ∈ completeList existing l →
    it.kind = CompletionItemKind.property →
    existing.contains it.label = false ∧
      ∃ sub, sub ∈ l ∧
        ∃ ps, ReachableProperty sub it.label ps ∧ ps.doNotSuggest = false
  | existing, [], it, hmem, _ => by
    rw [completeList] at hmem
    simp at hmem
  | existing, x :: rest, it, hmem, hkind => by
    rw [completeList] at hmem
    rcases List.mem_append.1 hmem with h | h
    · obtain ⟨h2, ps, hre, h4⟩ := completePropertyNames_sound existing x it h hkind
      exact ⟨h2, x, List.mem_cons_self _ _, ps, hre, h4⟩
    · obtain ⟨h2, sub, hsub, ps, hre, h4⟩ := completeList_sound existing rest it h hkind
      exact ⟨h2, sub, List.mem_cons_of_mem _ hsub, ps, hre, h4⟩
termination_by _ l _ => 4 * sizeOf l
decreasing_by
  all_goals simp
  all_goals omega

theorem completeOpt_sound : ∀ (existing : List String) (o : Option JsonSchema)
    (it : CompletionItem), it ∈ completeOpt existing o →
    it.kind = CompletionItemKind.property →
    existing.contains it.label = false ∧
      ∃ t, o = some t ∧
        ∃ ps, ReachableProperty t it.label ps ∧ ps.doNotSuggest = false
  | existing, none, it, hmem, _ => by
    rw [completeOpt] at hmem
    simp at hmem
  | existing, some t, it, hmem, hkind => by
    rw [completeOpt] at hmem
    obtain ⟨h2, ps, hre, h4⟩ := completePropertyNames_sound existing t it hmem hkind
    exact ⟨h2, t, rfl, ps, hre, h4⟩
termination_by _ o _ => 4 * sizeOf o
decreasing_by
  all_goals simp
  all_goals omega

end

/-- **C10.** Every property-name completion item produced from the schema's
properties — at any depth of the `allOf`/`anyOf`/`oneOf`/`then`/`else`
recursion — has a label that is not among the keys already present in the
object, and stems from a property schema that does not set `doNotSuggest`. -/
theorem claim_C10_no_present_or_suppressed (existing : List String) (s : JsonSchema)
    (it : CompletionItem) (hmem : it ∈ completePropertyNames existing s)
    (hkind : it.kind = CompletionItemKind.property) :
    existing.contains it.label = false ∧
      ∃ ps, ReachableProperty s it.label ps ∧ ps.doNotSuggest = false :=
  completePropertyNames_sound existing s it hmem hkind

def exC10Schema : JsonSchema := .mk {} { properties := [("x", JsonSchema.defaultSchema)] }

def exC10Item : CompletionItem :=
  { label := "x"
    kind := .property
    sortText := some (propertySortText false "x") }

/-- Witness for C10 at a one-property schema with an unrelated existing key. -/
theorem claim_C10_witness :
    (["y"] : List String).contains exC10Item.label = false ∧
      ∃ ps, ReachableProperty exC10Schema exC10Item.label ps ∧ ps.doNotSuggest = false := by
  apply claim_C10_no_present_or_suppressed ["y"] exC10Schema exC10Item
  · rw [completePropertyNames]
    rw [show exC10Schema.properties = [("x", JsonSchema.defaultSchema)] from rfl,
      show exC10Schema.required = [] from rfl,
      show exC10Schema.allOf = [] from rfl,
      show exC10Schema.anyOf = [] from rfl,
      show exC10Schema.oneOf = [] from rfl,
      show exC10Schema.thenSchema = none from rfl,
      show exC10Schema.elseSchema = none from rfl,
      show exC10Schema.defaultSnippets = [] from rfl]
    rw [propertyItems, if_neg (by decide)]
    rw [propertyItems, completeList, completeOpt, snippetItems]
    simp [exC10Item, JsonSchema.defaultSchema, JsonSchema.types,
      JsonSchema.markdownDescription, JsonSchema.description, JsonSchema.deprecated,
      JsonSchema.scalars]
  · rfl

/-! ## Debounced validation (`debounced_validate`, server.rs) — C3

The per-URI table `debounce_versions : HashMap<Url, u64>` is modelled as a
total function with the `unwrap_or(0)` default built in.  `debounced_validate`
has two synchronous steps separated by the `sleep(DEBOUNCE_MS)` suspension:
first bump this URI's counter and capture it, then — after the sleep, i.e.
after any interleaved calls have bumped their URIs — re-read the counter and
proceed to `validate_and_publish` only if it is unchanged.  The interleaved
activity during the sleep is a list of the URIs whose counters were bumped. -/

def DEBOUNCE_MS : Nat := 75

/-- Step 1 of `debounced_validate`: `*v += 1; version = *v`. -/
def debounceBump (tbl : String → Nat) (uri : String) : (String → Nat) × Nat :=
  (fun u => if u = uri then tbl uri + 1 else tbl u, tbl uri + 1)

/-- The table after the sleep, during which the calls in `others` each ran
their own bump (in order). -/
def applyBumps (tbl : String → Nat) (others : List String) : String → Nat :=
  others.foldl (fun t u => (debounceBump t u).1) tbl

/-- Step 2 of `debounced_validate`: `current == version` — on `false` the
call returns before `validate_and_publish`. -/
def debounceProceeds (tbl : String → Nat) (uri : String) (version : Nat) : Bool :=
  tbl uri == version

theorem applyBumps_count (others : List String) (tbl : String → Nat) (uri : String) :
    applyBumps tbl others uri
      = tbl uri + (others.filter (fun u => u = uri)).length := by
  induction others generalizing tbl with
  | nil => simp [applyBumps]
  | cons u rest ih =>
    show applyBumps ((debounceBump tbl u).1) rest uri = _
    rw [ih]
    by_cases hu : u = uri
    · subst hu
      simp [debounceBump, List.filter_cons]
      omega
    · simp [debounceBump, List.filter_cons, hu, Ne.symm hu]

/-- **C3.** The sleep lasts `DEBOUNCE_MS = 75` ms, and for every starting
table, URI and interleaving: if any call for the same URI bumps the counter
during the sleep, the earlier call's version check fails, so it returns
without validating or publishing; if no same-URI bump intervenes (bumps to
other URIs are irrelevant), the check succeeds and the call proceeds to
`validate_and_publish`. -/
theorem claim_C3_debounce_supersedes :
    DEBOUNCE_MS = 75 ∧
    ∀ (tbl : String → Nat) (uri : String) (others : List String),
      (uri ∈ others →
        debounceProceeds (applyBumps (debounceBump tbl uri).1 others) uri
          (debounceBump tbl uri).2 = false) ∧
      (uri ∉ others →
        debounceProceeds (applyBumps (debounceBump tbl uri).1 others) uri
          (debounceBump tbl uri).2 = true) := by
  refine ⟨rfl, fun tbl uri others => ⟨fun hin => ?_, fun hout => ?_⟩⟩
  · rw [debounceProceeds, applyBumps_count]
    have hpos : 0 < (others.filter (fun u => u = uri)).length := by
      rw [List.length_pos]
      intro hnil
      have := List.filter_eq_nil_iff.1 hnil uri hin
      simp at this
    simp only [debounceBump, eq_self_iff_true, if_true]
    rw [beq_eq_false_iff_ne]
    omega
  · rw [debounceProceeds, applyBumps_count]
    have hnil : (others.filter (fun u => u = uri)).length = 0 := by
      rw [List.length_eq_zero, List.filter_eq_nil_iff]
      intro u hu
      simp only [decide_eq_true_eq]
      intro he
      exact hout (he ▸ hu)
    simp [debounceBump, hnil]

/-- Witness for C3: a same-URI bump during the sleep kills the first call;
an unrelated bump does not. -/
theorem claim_C3_witness :
    (debounceProceeds
        (applyBumps (debounceBump (fun _ => 0) "file:a").1 ["file:a"]) "file:a"
        (debounceBump (fun _ => 0) "file:a").2 = false) ∧
      (debounceProceeds
        (applyBumps (debounceBump (fun _ => 0) "file:a").1 ["file:b"]) "file:a"
        (debounceBump (fun _ => 0) "file:a").2 = true) :=
  ⟨((claim_C3_debounce_supersedes.2 (fun _ => 0) "file:a" ["file:a"]).1 (by simp)),
    ((claim_C3_debounce_supersedes.2 (fun _ => 0) "file:a" ["file:b"]).2 (by simp))⟩

/-! ## Closing a document (`did_close`, server.rs / `DocumentStore::close`) — C9

The store (`HashMap<Url, Document>`) is modelled as a partial map; the
tree-sitter tree and parser inside `Document` belong to the external parser
library and are omitted, which no claim touches. -/

structure DocM where
  text : List Char
  version : Int

/-- A `publish_diagnostics(uri, diags, version)` call; diagnostics carry a
byte range and a message. -/
structure DiagnosticM where
  startByte : Nat
  endByte : Nat
  message : String

structure PublishedDiagnostics where
  uri : String
  diags : List DiagnosticM
  version : Option Int

/-- `DocumentStore::close`: `self.docs.remove(uri)`. -/
def storeClose (store : String → Option DocM) (uri : String) : String → Option DocM :=
  fun u => if u = uri then none else store u

/-- `DocumentStore::get`. -/
def storeGet (store : String → Option DocM) (uri : String) : Option DocM := store uri

/-- `did_close`: remove the document, then publish an *empty* diagnostics
list (with no version) for the URI. -/
def didClose (store : String → Option DocM) (uri : String) :
    (String → Option DocM) × PublishedDiagnostics :=
  (storeClose store uri, ⟨uri, [], none⟩)

/-- **C9.** Handling `didClose` removes the URI's document (subsequent
lookups return none) and publishes an empty diagnostics list for exactly
that URI — never a non-empty one — clearing previously shown diagnostics. -/
theorem claim_C9_didClose_clears (store : String → Option DocM) (uri : String) :
    storeGet (didClose store uri).1 uri = none ∧
      (didClose store uri).2.uri = uri ∧
      (didClose store uri).2.diags = [] := by
  refine ⟨?_, rfl, rfl⟩
  show (if uri = uri then none else store uri) = none
  rw [if_pos rfl]

end JsonLS
